import Mathlib

/-!
pdffill: field-value codec, field resolver and driver.

A shallow embedding of `pdffill.cc` and the properties of its specification.

Modelling conventions.

* `QString` is modelled by `String` (well-formed Unicode text; unpaired surrogates are not
  modelled), `QStringList` by `List String`, `QList<int>` by `List Nat`, `int` by `Int`.
* The PDF engine (Poppler) is external.  A form field is modelled by the record of what
  its accessors return; every mutator stores its argument in the attribute that the
  matching accessor reads and touches nothing else.  Fields are independent of each other.
* Standard output and standard error are modelled as the lists of the lines written to
  them.
* `QMap` is modelled by an association list kept in key order.
* The file system and the converter are parameters of `main` (`Engine`).
* `main` is the program from line 144 on; `invocation` puts `parser.process` (line 142)
  in front of it, with the parser's own exits.
-/

namespace Pdffill

/-! ## Qt strings -/

/-- UTF-16 code units of one character (the representation `QString` compares). -/
def utf16EncodeChar (c : Char) : List Nat :=
  let v := c.val.toNat
  if v < 0x10000 then [v]
  else [0xD800 + (v - 0x10000) / 0x400, 0xDC00 + (v - 0x10000) % 0x400]

/-- UTF-16 code units of a `QString`. -/
def utf16 (s : String) : List Nat :=
  s.data.flatMap utf16EncodeChar

/-- `operator<` of `QString`: lexicographic comparison of the UTF-16 code units. -/
def qstringLt (a b : String) : Bool :=
  decide (utf16 a < utf16 b)

/-- UTF-8 bytes of one character. -/
def utf8EncodeChar (c : Char) : List Nat :=
  let v := c.val.toNat
  if v < 0x80 then [v]
  else if v < 0x800 then [0xC0 + v / 0x40, 0x80 + v % 0x40]
  else if v < 0x10000 then [0xE0 + v / 0x1000, 0x80 + v / 0x40 % 0x40, 0x80 + v % 0x40]
  else [0xF0 + v / 0x40000, 0x80 + v / 0x1000 % 0x40, 0x80 + v / 0x40 % 0x40, 0x80 + v % 0x40]

/-- `QString::toUtf8()`: the bytes of the UTF-8 encoding. -/
def toUtf8 (s : String) : List Nat :=
  s.data.flatMap utf8EncodeChar

/-- `QByteArray::constData()` read as a `const char *`: a C string ends at its first
NUL byte. -/
def constData (bytes : List Nat) : List Nat :=
  bytes.takeWhile (fun b => b != 0)

/-- The UTF-8 decoder of Qt 5 (`QUtf8::convertToUnicode`) skips a byte-order mark
(`EF BB BF`) at the very start of its input. -/
def skipBom : List Nat → List Nat
  | 0xEF :: 0xBB :: 0xBF :: rest => rest
  | bytes => bytes

/-- `operator==(const char *, const QString &)`: Qt decodes the C string as UTF-8,
skipping a byte-order mark at its start, and compares the result with the `QString`.  On
well-formed text the decoded string equals `s` exactly when the bytes after the skipped
mark are the UTF-8 encoding of `s`, which is what is computed. -/
def cstrEqQString (cstr : List Nat) (s : String) : Bool :=
  skipBom cstr == toUtf8 s

/-- `QString::number(int)`: decimal representation. -/
def number (n : Int) : String :=
  toString n

/-- `QStringList::indexOf(value)` searching from `from`: index of the first element equal
to `value`, or `-1`. -/
def indexOfFrom : List String → String → Nat → Int
  | [], _, _ => -1
  | x :: xs, value, i => if x = value then (i : Int) else indexOfFrom xs value (i + 1)

/-- `QStringList::indexOf(value)`. -/
def indexOf (l : List String) (value : String) : Int :=
  indexOfFrom l value 0

/-- `QStringList::at(i)`.  Qt leaves an index out of range undefined; the engine only
reports indices of existing choices.  The model returns the empty string there. -/
def listAt (l : List String) (i : Nat) : String :=
  l.getD i ""

/-! ## QMap -/

/-- `QMap<QString, V>`: entries in key order. -/
abbrev QMap (V : Type) := List (String × V)

namespace QMap

/-- `QMap::contains`. -/
def contains {V : Type} (m : QMap V) (key : String) : Bool :=
  m.any (fun e => e.1 == key)

/-- `QMap::value(key)` / reading `m[key]`: the stored value, or the default. -/
def value {V : Type} [Inhabited V] : QMap V → String → V
  | [], _ => default
  | (k, v) :: rest, key => if k = key then v else value rest key

/-- Overwrites the value stored under an existing key. -/
def replace {V : Type} : QMap V → String → V → QMap V
  | [], _, _ => []
  | (k, v) :: rest, key, val =>
      if k = key then (k, val) :: rest else (k, v) :: replace rest key val

/-- Places a new entry in front of the first entry with a greater key. -/
def insertNew {V : Type} : QMap V → String → V → QMap V
  | [], key, val => [(key, val)]
  | (k, v) :: rest, key, val =>
      if qstringLt key k then (key, val) :: (k, v) :: rest
      else (k, v) :: insertNew rest key val

/-- The assignment `m[key] = val`: overwrite when the key is present, insert otherwise. -/
def insert {V : Type} (m : QMap V) (key : String) (val : V) : QMap V :=
  if contains m key then replace m key val else insertNew m key val

/-- `QMap::keys`, in iteration order. -/
def keys {V : Type} (m : QMap V) : List String :=
  m.map Prod.fst

end QMap

/-! ## The engine's form fields -/

/-- `Poppler::FormFieldButton::ButtonType`. -/
inductive ButtonType where
  | Push
  | CheckBox
  | Radio
  deriving DecidableEq, Repr

/-- `Poppler::FormField::type()` together with the state behind the accessors of the
matching subclass.
* `FormText`: `text()` / `setText`.
* `FormChoice`: `isEditable()`, `choices()`, `editChoice()` / `setEditChoice`,
  `currentChoices()` / `setCurrentChoices`.
* `FormButton`: `buttonType()`, `caption()`, `state()` / `setState`.
* `FormSignature`: every other type. -/
inductive FieldState where
  | FormText (text : String)
  | FormChoice (isEditable : Bool) (choices : List String) (editChoice : String)
      (currentChoices : List Nat)
  | FormButton (buttonType : ButtonType) (caption : String) (state : Bool)
  | FormSignature
  deriving DecidableEq, Repr

/-- `Poppler::FormField`. -/
structure FormField where
  fullyQualifiedName : String
  id : Int
  isReadOnly : Bool
  isVisible : Bool
  state : FieldState
  deriving DecidableEq, Repr

/-! ## Field-value codec -/

/-- `assign(field, value)`: the field after the call and the lines written to standard
error. -/
def assign (field : FormField) (value : String) : FormField × List String :=
  if field.isReadOnly || !field.isVisible then
    (field, [])
  else
    match field.state with
    | .FormText _ => ({ field with state := .FormText value }, [])
    | .FormChoice isEditable choices editChoice currentChoices =>
        if isEditable then
          ({ field with state := .FormChoice isEditable choices value currentChoices }, [])
        else
          let index := indexOf choices value
          if index ≥ 0 then
            ({ field with state := .FormChoice isEditable choices editChoice [index.toNat] }, [])
          else
            (field, ["can't set " ++ field.fullyQualifiedName ++ " to " ++ value])
    | .FormButton .Push _ _ => (field, [])
    | .FormButton .CheckBox caption _ =>
        let checked := value == "true" || value == "1" || value == "yes"
        ({ field with state := .FormButton .CheckBox caption checked }, [])
    | .FormButton .Radio caption _ =>
        let selected := cstrEqQString (constData (toUtf8 caption)) value
        ({ field with state := .FormButton .Radio caption selected }, [])
    | .FormSignature => (field, [])

/-- The loop of `content` over `currentChoices()` of a closed choice field, `r` being the
string built so far. -/
def contentLoop (possibleChoices : List String) : List Nat → String → String
  | [], r => r
  | i :: rest, r =>
      let r1 := if !r.isEmpty then r ++ "," else r
      contentLoop possibleChoices rest (r1 ++ listAt possibleChoices i)

/-- `content(field)`. -/
def content (field : FormField) : String :=
  match field.state with
  | .FormText text => text
  | .FormChoice isEditable choices editChoice currentChoices =>
      if isEditable then editChoice
      else contentLoop choices currentChoices ""
  | .FormButton .Push _ _ => "<button>"
  | .FormButton .CheckBox _ state => if state then "true" else "false"
  | .FormButton .Radio _ state => if state then "true" else "false"
  | .FormSignature => "<unknown-form-element>"

/-! ## Driver -/

/-- `Poppler::Document`: the pages in index order, each the sequence of its form fields
(`page->formFields()`). -/
abbrev Document := List (List FormField)

/-- What the driver takes from outside: the usage text of the command-line parser, the
loader `Poppler::Document::load` (`none` for a null document) and the outcome of
`converter->convert()` for a document and an output file name. -/
structure Engine where
  helpText : String
  load : String → Option Document
  convert : Document → String → Bool

/-- The parsed command line: `parser.isSet(listOption)`, `parser.isSet(fillfieldOption)`,
`parser.values(setOption)` and `parser.positionalArguments()`. -/
structure CommandLine where
  listOption : Bool
  fillfieldOption : Bool
  setOption : List String
  args : List String

/-- `parser.isSet(setOption)`: the option takes a value, so it is set exactly when it has
at least one value. -/
def CommandLine.isSetSetOption (cl : CommandLine) : Bool :=
  !cl.setOption.isEmpty

/-- `QString::indexOf(ch)` from position `i`, positions counted in characters (`=` is one
code unit, so the split point is the same as in code units). -/
def indexOfCharFrom : List Char → Char → Nat → Int
  | [], _, _ => -1
  | x :: xs, ch, i => if x = ch then (i : Int) else indexOfCharFrom xs ch (i + 1)

/-- `QString::indexOf(ch)`. -/
def indexOfChar (s : String) (ch : Char) : Int :=
  indexOfCharFrom s.data ch 0

/-- `QString::left(n)`. -/
def left (s : String) (n : Nat) : String :=
  String.mk (s.data.take n)

/-- `QString::mid(pos)`. -/
def mid (s : String) (pos : Nat) : String :=
  String.mk (s.data.drop pos)

/-- The maps `assgs` and `assigned` and the lines written to standard error while the
`-s` operands are read. -/
structure Assignments where
  assgs : QMap String
  assigned : QMap Bool
  err : List String

/-- One iteration of the loop over `parser.values(setOption)`. -/
def parseStep (st : Assignments) (assg : String) : Assignments :=
  let eq := indexOfChar assg '='
  if eq ≥ 0 then
    { assgs := st.assgs.insert (left assg eq.toNat) (mid assg (eq.toNat + 1)),
      assigned := st.assigned.insert (left assg eq.toNat) false,
      err := st.err }
  else
    { st with err := st.err ++ ["not an assigment " ++ assg] }

/-- The loop over `parser.values(setOption)`, starting from empty maps. -/
def parseAssignments (values : List String) : Assignments :=
  values.foldl parseStep { assgs := [], assigned := [], err := [] }

/-- What one visit of a field does once the list line is printed: the field, the map
`assigned` and the lines written to standard error. -/
structure Visit where
  field : FormField
  assigned : QMap Bool
  err : List String

/-- The block `if (parser.isSet(setOption)) { ... }` of the field loop: the field
resolver. -/
def resolve (assgs : QMap String) (assigned : QMap Bool) (field : FormField) : Visit :=
  let fqn := field.fullyQualifiedName
  if assgs.contains fqn then
    let r := assign field (assgs.value fqn)
    { field := r.1, assigned := assigned.insert fqn true, err := r.2 }
  else
    let sid := number field.id
    if assgs.contains sid then
      let r := assign field (assgs.value sid)
      { field := r.1, assigned := assigned.insert sid true, err := r.2 }
    else
      { field := field, assigned := assigned, err := [] }

/-- The line printed for a field under `-l`; `i` is the zero-based page index. -/
def listLine (i : Nat) (field : FormField) : String :=
  "Page " ++ toString (i + 1) ++ " : " ++ field.fullyQualifiedName ++
    " (" ++ number field.id ++ ") = " ++ content field

/-- The name-fill and the resolver applied to one field, in the order of the loop body. -/
def visitField (cl : CommandLine) (assgs : QMap String) (assigned : QMap Bool)
    (field : FormField) : Visit :=
  let filled :=
    if cl.fillfieldOption then assign field field.fullyQualifiedName else (field, [])
  if cl.isSetSetOption then
    let r := resolve assgs assigned filled.1
    { r with err := filled.2 ++ r.err }
  else
    { field := filled.1, assigned := assigned, err := filled.2 }

/-- State carried through the pass over the document: the map `assigned` and what has been
written to the two streams. -/
structure Pass where
  assigned : QMap Bool
  out : List String
  err : List String

/-- The loop over `page->formFields()` for the page of index `i`. -/
def visitPage (cl : CommandLine) (assgs : QMap String) (i : Nat) :
    List FormField → Pass → List FormField × Pass
  | [], st => ([], st)
  | field :: rest, st =>
      let out := if cl.listOption then st.out ++ [listLine i field] else st.out
      let v := visitField cl assgs st.assigned field
      let r := visitPage cl assgs i rest
        { assigned := v.assigned, out := out, err := st.err ++ v.err }
      (v.field :: r.1, r.2)

/-- The loop `for (int i = 0; i < n; i++)` over the pages, from page index `i` on. -/
def visitPages (cl : CommandLine) (assgs : QMap String) :
    Nat → Document → Pass → Document × Pass
  | _, [], st => ([], st)
  | i, page :: rest, st =>
      let p := visitPage cl assgs i page st
      let r := visitPages cl assgs (i + 1) rest p.2
      (p.1 :: r.1, r.2)

/-- The loop over `assigned` after the pass: one line for every key whose flag is
false, in key order. -/
def notFound (assigned : QMap Bool) : List String :=
  (assigned.filter (fun e => !e.2)).map (fun e => e.1 ++ " not found!")

/-- What a run leaves behind: exit status, the two streams, the document in memory with
the changes made by the pass, the output file name and document on which
`converter->convert()` was called (if it was called), and the file name and document
handed to a successful `convert()`. -/
structure Outcome where
  status : Int
  out : List String
  err : List String
  document : Option Document
  convertCall : Option (String × Document)
  written : Option (String × Document)

/-- `main`, after `parser.process`. -/
def main (engine : Engine) (cl : CommandLine) : Outcome :=
  match cl.args with
  | [] =>
      { status := 1, out := [], err := [engine.helpText], document := none,
        convertCall := none, written := none }
  | src :: more =>
      let parsed :=
        if cl.isSetSetOption then parseAssignments cl.setOption
        else { assgs := [], assigned := [], err := [] }
      match engine.load src with
      | none =>
          { status := 1, out := [], err := parsed.err, document := none,
            convertCall := none, written := none }
      | some document =>
          let n := document.length
          let err1 :=
            if cl.listOption then parsed.err ++ [toString n ++ " pages total"] else parsed.err
          let r := visitPages cl parsed.assgs 0 document
            { assigned := parsed.assigned, out := [], err := err1 }
          let err2 :=
            if cl.isSetSetOption then r.2.err ++ notFound r.2.assigned else r.2.err
          match more with
          | dst :: _ =>
              if cl.isSetSetOption || cl.fillfieldOption then
                let name := if dst = "-" then "/dev/stdout" else dst
                if !engine.convert r.1 name then
                  { status := 1, out := r.2.out, err := err2 ++ ["failed to convert."],
                    document := some r.1, convertCall := some (name, r.1), written := none }
                else
                  { status := 0, out := r.2.out, err := err2,
                    document := some r.1, convertCall := some (name, r.1),
                    written := some (name, r.1) }
              else
                { status := 0, out := r.2.out, err := err2,
                  document := some r.1, convertCall := none, written := none }
          | [] =>
              { status := 0, out := r.2.out, err := err2,
                document := some r.1, convertCall := none, written := none }

/-- What `parser.process(app)` (line 142) makes of the command line, as Qt documents
`QCommandLineParser::process`.  A command line that cannot be parsed (unknown option, `-s`
without operand) ends the program there: the error text is written to standard error and
the exit status is 1.  A command line that parses and holds the help option registered by
`addHelpOption()` (`-h`, `--help`) ends the program there too: the usage is written to
standard output and the exit status is 0.  Otherwise `process` returns and `main` goes on
with the options and positional arguments. -/
inductive Process where
  | error (errorText : String)
  | help (cl : CommandLine)
  | parsed (cl : CommandLine)

/-- A whole invocation: `parser.process(app)` followed, when it returns, by the rest of
`main`. -/
def invocation (engine : Engine) : Process → Outcome
  | .error errorText =>
      { status := 1, out := [], err := ["pdffill: " ++ errorText], document := none,
        convertCall := none, written := none }
  | .help _ =>
      { status := 0, out := [engine.helpText], err := [], document := none,
        convertCall := none, written := none }
  | .parsed cl => main engine cl

/-! ## Vocabulary of the properties -/

/-- The field at position `k` of the page of index `p`, if there is one. -/
def fieldAt (doc : Document) (p k : Nat) : Option FormField :=
  (doc.get? p).bind (fun page => page.get? k)

/-- All fields of a document, in the order of the pass. -/
def allFields (doc : Document) : List FormField :=
  doc.flatten

/-- A field that `assign` does not skip: not read-only and visible. -/
def writable (field : FormField) : Bool :=
  !field.isReadOnly && field.isVisible

/-- The field after its visit; the map `assigned` plays no part in it. -/
def visited (cl : CommandLine) (assgs : QMap String) (field : FormField) : FormField :=
  (visitField cl assgs [] field).field

/-- The key under which the resolver serves a field, if any. -/
def resolvedKey (assgs : QMap String) (field : FormField) : Option String :=
  if assgs.contains field.fullyQualifiedName then some field.fullyQualifiedName
  else if assgs.contains (number field.id) then some (number field.id)
  else none

/-- What the resolver does to the flags when it visits a field. -/
def markFulfilled (assgs : QMap String) (assigned : QMap Bool) (field : FormField) :
    QMap Bool :=
  match resolvedKey assgs field with
  | some key => assigned.insert key true
  | none => assigned

/-- A key matches a field by its fully-qualified name or by its decimal object id. -/
def matchesKey (field : FormField) (key : String) : Bool :=
  field.fullyQualifiedName == key || number field.id == key

/-- Following the words of the specification for reading a closed choice field: the labels
of the currently selected choices joined by a single comma, in index order; the empty
string if nothing is selected. -/
def specClosedRead (choices : List String) (currentChoices : List Nat) : String :=
  ",".intercalate (currentChoices.map (listAt choices))

/-- What reading the `-s` operands establishes: the two maps have the same keys, the keys
of `assigned` are pairwise distinct, and every flag reads false. -/
structure Assignments.Fresh (st : Assignments) : Prop where
  sameKeys : ∀ k : String, st.assigned.contains k = true ↔ st.assgs.contains k = true
  nodup : (QMap.keys st.assigned).Nodup
  allFalse : ∀ k : String, st.assigned.value k = false

/-- Following the words of the specification for one `-s` operand: the text to the left of
its first `=` (the key) and the text to the right of it (the value), if the operand has
an `=`. -/
def specSplit (assg : String) : Option (String × String) :=
  if Char.ofNat 61 ∈ assg.data then
    some (String.mk (assg.data.takeWhile (fun ch => ch != Char.ofNat 61)),
      String.mk ((assg.data.dropWhile (fun ch => ch != Char.ofNat 61)).drop 1))
  else none

/-- Following the words of the specification for the assignment map: the value held under
a key after the operands are taken in order, a later operand with the same key overriding
an earlier one; `none` if no operand has the key. -/
def specValue (values : List String) (key : String) : Option String :=
  values.foldl
    (fun acc assg =>
      match specSplit assg with
      | some (k, v) => if k = key then some v else acc
      | none => acc)
    none

/-- The field after the name-fill of its visit, if `-F` is given. -/
def nameFilled (cl : CommandLine) (field : FormField) : FormField :=
  if cl.fillfieldOption then (assign field field.fullyQualifiedName).1 else field

/-- The lines printed under `-l` for the fields of a document as they are given, the
first page having index `i`. -/
def listing : Nat → Document → List String
  | _, [] => []
  | i, page :: rest => page.map (listLine i) ++ listing (i + 1) rest

/-! ## Sample fields -/

/-- A writable text field `name` with object id 7. -/
def sampleText : FormField :=
  { fullyQualifiedName := "name", id := 7, isReadOnly := false, isVisible := true,
    state := .FormText "" }

/-- The text field `name`, read-only and holding `Bob`. -/
def sampleReadOnlyText : FormField :=
  { fullyQualifiedName := "name", id := 7, isReadOnly := true, isVisible := true,
    state := .FormText "Bob" }

/-- A writable closed choice field `color` with the labels Red, Green, Blue, Red being
selected. -/
def sampleColor : FormField :=
  { fullyQualifiedName := "color", id := 12, isReadOnly := false, isVisible := true,
    state := .FormChoice false ["Red", "Green", "Blue"] "" [0] }

/-- A writable radio button with the caption `A`, selected. -/
def sampleRadio : FormField :=
  { fullyQualifiedName := "group", id := 21, isReadOnly := false, isVisible := true,
    state := .FormButton .Radio "A" true }

/-- A writable checkbox `ok`, checked. -/
def sampleCheckBox : FormField :=
  { fullyQualifiedName := "ok", id := 9, isReadOnly := false, isVisible := true,
    state := .FormButton .CheckBox "" true }

/-- The command line `pdffill -F -s name=Alice in.pdf out.pdf`. -/
def sampleFillAndSet : CommandLine :=
  { listOption := false, fillfieldOption := true, setOption := ["name=Alice"],
    args := ["in.pdf", "out.pdf"] }

/-- A closed choice field with an empty first label and the label `b`, both selected. -/
def sampleEmptyLabel : FormField :=
  { fullyQualifiedName := "list", id := 30, isReadOnly := false, isVisible := true,
    state := .FormChoice false ["", "b"] "" [0, 1] }

/-- The command line `pdffill --help`, as far as it is parsed: no option besides the help
option, no positional argument. -/
def sampleHelp : CommandLine :=
  { listOption := false, fillfieldOption := false, setOption := [], args := [] }

/-- The command line `pdffill -F in.pdf out.pdf`. -/
def sampleFill : CommandLine :=
  { listOption := false, fillfieldOption := true, setOption := [],
    args := ["in.pdf", "out.pdf"] }

/-- The command line `pdffill -l -F -s name=Alice in.pdf`. -/
def sampleListFillSet : CommandLine :=
  { listOption := true, fillfieldOption := true, setOption := ["name=Alice"],
    args := ["in.pdf"] }

/-- An engine that cannot load any source. -/
def sampleFailingEngine : Engine :=
  { helpText := "usage", load := fun _ => none, convert := fun _ _ => true }

/-- An engine that loads `doc` from every path and always converts. -/
def sampleEngine (doc : Document) : Engine :=
  { helpText := "usage", load := fun _ => some doc, convert := fun _ _ => true }

/-- The command line `pdffill -s <values>... in.pdf out.pdf`. -/
def sampleSet (values : List String) : CommandLine :=
  { listOption := false, fillfieldOption := false, setOption := values,
    args := ["in.pdf", "out.pdf"] }

/-! ## Lemmas on `QMap` -/

namespace QMap

theorem contains_iff {V : Type} (m : QMap V) (key : String) :
    contains m key = true ↔ key ∈ keys m := by
  simp only [contains, keys, List.any_eq_true, beq_iff_eq, List.mem_map]

theorem keys_replace {V : Type} (m : QMap V) (key : String) (val : V) :
    keys (replace m key val) = keys m := by
  induction m with
  | nil => rfl
  | cons e rest ih =>
      obtain ⟨k, v⟩ := e
      simp only [replace]
      split
      · simp [keys]
      · simp only [keys, List.map_cons] at ih ⊢
        rw [ih]

theorem keys_insertNew_perm {V : Type} (m : QMap V) (key : String) (val : V) :
    (keys (insertNew m key val)).Perm (key :: keys m) := by
  induction m with
  | nil => simp [insertNew, keys]
  | cons e rest ih =>
      obtain ⟨k, v⟩ := e
      simp only [insertNew]
      split
      · simp [keys]
      · simp only [keys, List.map_cons] at ih ⊢
        exact (List.Perm.cons k ih).trans (List.Perm.swap key k _)

theorem value_replace {V : Type} [Inhabited V] (m : QMap V) (key : String) (val : V)
    (k : String) (h : contains m key = true) :
    value (replace m key val) k = if k = key then val else value m k := by
  induction m with
  | nil => simp [contains] at h
  | cons e rest ih =>
      obtain ⟨k0, v0⟩ := e
      simp only [replace]
      by_cases h0 : k0 = key
      · subst h0
        by_cases hk : k = k0
        · subst hk; simp [value]
        · have hk2 : ¬ k0 = k := fun h => hk h.symm
          simp [value, hk, hk2]
      · have hrest : contains rest key = true := by
          simp only [contains, List.any_cons, Bool.or_eq_true, beq_iff_eq] at h ⊢
          rcases h with h | h
          · exact absurd h h0
          · exact h
        simp only [h0, if_false, value, ih hrest]
        by_cases hk : k = key
        · subst hk; simp [h0]
        · simp [hk]

theorem value_insertNew {V : Type} [Inhabited V] (m : QMap V) (key : String) (val : V)
    (k : String) (h : contains m key = false) :
    value (insertNew m key val) k = if k = key then val else value m k := by
  induction m with
  | nil =>
      by_cases hk : k = key
      · subst hk; simp [insertNew, value]
      · have hk2 : ¬ key = k := fun h => hk h.symm
        simp [insertNew, value, hk, hk2]
  | cons e rest ih =>
      obtain ⟨k0, v0⟩ := e
      have h0 : ¬ k0 = key := by
        intro h0; subst h0; simp [contains] at h
      have hrest : contains rest key = false := by
        simp only [contains, List.any_cons, Bool.or_eq_false_iff] at h ⊢
        exact h.2
      simp only [insertNew]
      split
      · by_cases hk : k = key
        · subst hk; simp [value]
        · have hk2 : ¬ key = k := fun h => hk h.symm
          simp [value, hk, hk2]
      · simp only [value, ih hrest]
        by_cases hk : k = key
        · subst hk; simp [h0]
        · simp [hk]

/-- Reading after `m[key] = val`: the new value under `key`, the old one elsewhere. -/
theorem value_insert {V : Type} [Inhabited V] (m : QMap V) (key : String) (val : V)
    (k : String) :
    value (insert m key val) k = if k = key then val else value m k := by
  unfold insert
  by_cases h : contains m key = true
  · simp only [h, if_true]; exact value_replace m key val k h
  · rw [if_neg h]; exact value_insertNew m key val k (by simpa using h)

/-- Keys after `m[key] = val`. -/
theorem mem_keys_insert {V : Type} (m : QMap V) (key : String) (val : V) (k : String) :
    k ∈ keys (insert m key val) ↔ k = key ∨ k ∈ keys m := by
  unfold insert
  by_cases h : contains m key = true
  · simp only [h, if_true, keys_replace]
    constructor
    · exact Or.inr
    · rintro (rfl | h')
      · exact (contains_iff m k).1 h
      · exact h'
  · rw [if_neg h, (keys_insertNew_perm m key val).mem_iff]
    simp

theorem contains_insert {V : Type} (m : QMap V) (key : String) (val : V) (k : String) :
    contains (insert m key val) k = true ↔ k = key ∨ contains m k = true := by
  rw [contains_iff, contains_iff, mem_keys_insert]

/-- Assigning under a key that is present leaves the key sequence as it is. -/
theorem keys_insert_of_contains {V : Type} (m : QMap V) (key : String) (val : V)
    (h : contains m key = true) : keys (insert m key val) = keys m := by
  simp [insert, h, keys_replace]

/-- The keys stay pairwise distinct under `m[key] = val`. -/
theorem nodup_keys_insert {V : Type} (m : QMap V) (key : String) (val : V)
    (h : (keys m).Nodup) : (keys (insert m key val)).Nodup := by
  unfold insert
  by_cases hc : contains m key = true
  · simpa [hc, keys_replace] using h
  · rw [if_neg hc, (keys_insertNew_perm m key val).nodup_iff, List.nodup_cons]
    refine ⟨?_, h⟩
    rw [← contains_iff]; exact hc

end QMap

/-! ## Lemmas on the codec and on the pass -/

theorem assign_of_not_writable (field : FormField) (value : String)
    (h : field.isReadOnly = true ∨ field.isVisible = false) :
    assign field value = (field, []) := by
  unfold assign
  rcases h with h | h <;> simp [h]

theorem assign_fullyQualifiedName (field : FormField) (value : String) :
    (assign field value).1.fullyQualifiedName = field.fullyQualifiedName := by
  unfold assign
  split
  · rfl
  · split
    · rfl
    · simp only
      split_ifs <;> rfl
    all_goals rfl

theorem assign_id (field : FormField) (value : String) :
    (assign field value).1.id = field.id := by
  unfold assign
  split
  · rfl
  · split
    · rfl
    · simp only
      split_ifs <;> rfl
    all_goals rfl

theorem resolve_field (assgs : QMap String) (assigned assigned' : QMap Bool)
    (field : FormField) :
    (resolve assgs assigned field).field = (resolve assgs assigned' field).field := by
  unfold resolve
  simp only
  split
  · rfl
  · split <;> rfl

theorem visitField_field (cl : CommandLine) (assgs : QMap String) (assigned : QMap Bool)
    (field : FormField) :
    (visitField cl assgs assigned field).field = visited cl assgs field := by
  unfold visited visitField
  simp only
  split
  · exact resolve_field _ _ _ _
  · rfl

theorem visitPage_fields (cl : CommandLine) (assgs : QMap String) (i : Nat)
    (fields : List FormField) (st : Pass) :
    (visitPage cl assgs i fields st).1 = fields.map (visited cl assgs) := by
  induction fields generalizing st with
  | nil => rfl
  | cons field rest ih => simp [visitPage, ih, visitField_field]

theorem visitPages_fields (cl : CommandLine) (assgs : QMap String) (i : Nat)
    (doc : Document) (st : Pass) :
    (visitPages cl assgs i doc st).1 = doc.map (List.map (visited cl assgs)) := by
  induction doc generalizing i st with
  | nil => rfl
  | cons page rest ih => simp [visitPages, ih, visitPage_fields]

theorem fieldAt_map (g : FormField → FormField) (doc : Document) (p k : Nat) :
    fieldAt (doc.map (List.map g)) p k = (fieldAt doc p k).map g := by
  unfold fieldAt
  simp only [List.get?_eq_getElem?, List.getElem?_map]
  cases doc[p]? with
  | none => rfl
  | some page => simp [List.getElem?_map]

theorem parsed_eq (cl : CommandLine) :
    (if cl.isSetSetOption then parseAssignments cl.setOption
      else ({ assgs := [], assigned := [], err := [] } : Assignments))
      = parseAssignments cl.setOption := by
  unfold CommandLine.isSetSetOption
  cases h : cl.setOption with
  | nil => simp [parseAssignments]
  | cons a l => simp

/-- The document in memory at the end of a run that could load its source. -/
theorem main_document (engine : Engine) (cl : CommandLine) (src : String)
    (more : List String) (doc : Document)
    (hargs : cl.args = src :: more) (hload : engine.load src = some doc) :
    (main engine cl).document
      = some (doc.map (List.map (visited cl (parseAssignments cl.setOption).assgs))) := by
  unfold main
  simp only [hargs, hload, parsed_eq, visitPages_fields]
  cases more with
  | nil => rfl
  | cons dst rest =>
      simp only
      split_ifs <;> rfl

/-! ## Lemmas on the flags `assigned` -/

namespace QMap

theorem mem_replace {V : Type} (m : QMap V) (key : String) (val : V) (e : String × V)
    (h : e ∈ replace m key val) : e = (key, val) ∨ e ∈ m := by
  induction m with
  | nil => simp [replace] at h
  | cons e0 rest ih =>
      obtain ⟨k0, v0⟩ := e0
      simp only [replace] at h
      split at h
      · rename_i hk
        subst hk
        rcases List.mem_cons.1 h with h | h
        · exact Or.inl h
        · exact Or.inr (List.mem_cons_of_mem _ h)
      · rcases List.mem_cons.1 h with h | h
        · exact Or.inr (h ▸ List.mem_cons_self _ _)
        · exact (ih h).imp id (List.mem_cons_of_mem _)

theorem mem_insertNew {V : Type} (m : QMap V) (key : String) (val : V) (e : String × V)
    (h : e ∈ insertNew m key val) : e = (key, val) ∨ e ∈ m := by
  induction m with
  | nil => simpa [insertNew] using h
  | cons e0 rest ih =>
      obtain ⟨k0, v0⟩ := e0
      simp only [insertNew] at h
      split at h
      · exact List.mem_cons.1 h
      · rcases List.mem_cons.1 h with h | h
        · exact Or.inr (h ▸ List.mem_cons_self _ _)
        · exact (ih h).imp id (List.mem_cons_of_mem _)

/-- Every entry after `m[key] = val` is the new one or an old one. -/
theorem mem_insert {V : Type} (m : QMap V) (key : String) (val : V) (e : String × V)
    (h : e ∈ insert m key val) : e = (key, val) ∨ e ∈ m := by
  unfold insert at h
  split at h
  · exact mem_replace m key val e h
  · exact mem_insertNew m key val e h

/-- With pairwise distinct keys, the entries are the keys paired with what is read under
them. -/
theorem mem_iff_value {V : Type} [Inhabited V] (m : QMap V) (h : (keys m).Nodup)
    (k : String) (v : V) : (k, v) ∈ m ↔ k ∈ keys m ∧ value m k = v := by
  induction m with
  | nil => simp [keys]
  | cons e0 rest ih =>
      obtain ⟨k0, v0⟩ := e0
      simp only [keys, List.map_cons, List.nodup_cons] at h
      have ih' := ih h.2
      simp only [keys] at ih'
      by_cases hk : k0 = k
      · subst hk
        have hnot : ∀ v', (k0, v') ∉ rest := fun v' hm =>
          h.1 (List.mem_map.2 ⟨(k0, v'), hm, rfl⟩)
        simp only [List.mem_cons, Prod.mk.injEq, true_and, keys, List.map_cons, value,
          if_true, true_or]
        constructor
        · rintro (h1 | h1)
          · exact h1.symm
          · exact absurd h1 (hnot v)
        · intro h1; exact Or.inl h1.symm
      · have hk' : ¬ k = k0 := fun h => hk h.symm
        simp only [List.mem_cons, Prod.mk.injEq, hk', false_and, false_or, keys,
          List.map_cons, value, hk, if_false]
        exact ih'

end QMap

theorem append_right_cancel (a b s : String) (h : a ++ s = b ++ s) : a = b := by
  have hd := congrArg String.data h
  simp only [String.data_append] at hd
  exact String.ext (List.append_cancel_right hd)

theorem notFound_cons (k0 : String) (b0 : Bool) (rest : QMap Bool) :
    notFound ((k0, b0) :: rest) =
      if b0 then notFound rest else (k0 ++ " not found!") :: notFound rest := by
  cases b0 <;> simp [notFound]

/-- With pairwise distinct keys: a key is reported exactly once if it is present with a
false flag, and not at all otherwise. -/
theorem count_notFound_of_nodup (assigned : QMap Bool) (h : (QMap.keys assigned).Nodup)
    (key : String) :
    (notFound assigned).count (key ++ " not found!") =
      if key ∈ QMap.keys assigned ∧ QMap.value assigned key = false then 1 else 0 := by
  induction assigned with
  | nil => simp [notFound, QMap.keys]
  | cons e rest ih =>
      obtain ⟨k0, b0⟩ := e
      simp only [QMap.keys, List.map_cons, List.nodup_cons] at h
      have ih' := ih h.2
      simp only [QMap.keys] at ih'
      rw [notFound_cons]
      by_cases hk : k0 = key
      · subst hk
        have h0 : (notFound rest).count (k0 ++ " not found!") = 0 := by
          rw [ih', if_neg (fun hc => h.1 hc.1)]
        cases b0 <;> simp [QMap.keys, QMap.value, h0]
      · have hk' : ¬ key = k0 := fun h => hk h.symm
        have hne : ¬ k0 ++ " not found!" = key ++ " not found!" :=
          fun h => hk (append_right_cancel _ _ _ h)
        have hgoal : (notFound rest).count (key ++ " not found!") =
            if key ∈ k0 :: List.map Prod.fst rest ∧
              QMap.value ((k0, b0) :: rest) key = false then 1 else 0 := by
          rw [ih']
          simp only [List.mem_cons, hk', false_or, QMap.value, hk, if_false]
        cases b0
        · rw [if_neg (by simp), List.count_cons_of_ne (fun h => hne h.symm)]
          exact hgoal
        · rw [if_pos rfl]
          exact hgoal

theorem parseStep_fresh (st : Assignments) (assg : String) (h : st.Fresh) :
    (parseStep st assg).Fresh := by
  unfold parseStep
  simp only
  split
  · refine ⟨fun k => ?_, QMap.nodup_keys_insert _ _ _ h.nodup, fun k => ?_⟩
    · simp only [QMap.contains_insert, h.sameKeys]
    · simp only [QMap.value_insert, h.allFalse, ite_self]
  · exact ⟨h.sameKeys, h.nodup, h.allFalse⟩

theorem foldl_parseStep_fresh (values : List String) (st : Assignments) (h : st.Fresh) :
    (values.foldl parseStep st).Fresh := by
  induction values generalizing st with
  | nil => exact h
  | cons assg rest ih => exact ih _ (parseStep_fresh st assg h)

theorem parseAssignments_fresh (values : List String) : (parseAssignments values).Fresh :=
  foldl_parseStep_fresh values _
    ⟨fun _ => Iff.rfl, List.nodup_nil, fun _ => rfl⟩

theorem resolvedKey_contains (assgs : QMap String) (field : FormField) (key : String)
    (h : resolvedKey assgs field = some key) : assgs.contains key = true := by
  unfold resolvedKey at h
  split at h
  · rename_i hc; cases h; exact hc
  · split at h
    · rename_i hc; cases h; exact hc
    · cases h

theorem resolvedKey_eq_some (assgs : QMap String) (field : FormField) (key : String) :
    resolvedKey assgs field = some key ↔
      (field.fullyQualifiedName = key ∧ assgs.contains key = true) ∨
      (number field.id = key ∧ assgs.contains key = true ∧
        assgs.contains field.fullyQualifiedName = false) := by
  unfold resolvedKey
  by_cases h1 : assgs.contains field.fullyQualifiedName = true
  · simp only [h1, if_true, Option.some.injEq]
    constructor
    · rintro rfl; exact Or.inl ⟨rfl, h1⟩
    · rintro (⟨h, _⟩ | ⟨_, _, h⟩)
      · exact h
      · simp at h
  · have h1' : assgs.contains field.fullyQualifiedName = false := by simpa using h1
    by_cases h2 : assgs.contains (number field.id) = true
    · simp only [h1', Bool.false_eq_true, if_false, h2, if_true, Option.some.injEq]
      constructor
      · rintro rfl; exact Or.inr ⟨rfl, h2, trivial⟩
      · rintro (⟨rfl, h⟩ | ⟨h, _, _⟩)
        · rw [h1'] at h; cases h
        · exact h
    · simp only [h1', Bool.false_eq_true, if_false, h2]
      constructor
      · intro h; cases h
      · rintro (⟨rfl, h⟩ | ⟨rfl, h, _⟩)
        · rw [h1'] at h; cases h
        · exact absurd h h2

theorem resolve_assigned (assgs : QMap String) (assigned : QMap Bool) (field : FormField) :
    (resolve assgs assigned field).assigned = markFulfilled assgs assigned field := by
  unfold resolve markFulfilled resolvedKey
  simp only
  split_ifs <;> rfl

theorem visitField_assigned (cl : CommandLine) (assgs : QMap String) (assigned : QMap Bool)
    (field : FormField) :
    (visitField cl assgs assigned field).assigned =
      if cl.isSetSetOption then markFulfilled assgs assigned field else assigned := by
  have hcongr : ∀ f1 f2 : FormField, f1.fullyQualifiedName = f2.fullyQualifiedName →
      f1.id = f2.id → markFulfilled assgs assigned f1 = markFulfilled assgs assigned f2 := by
    intro f1 f2 h1 h2
    unfold markFulfilled resolvedKey
    rw [h1, h2]
  unfold visitField
  simp only
  split
  · simp only [resolve_assigned]
    apply hcongr
    · split
      · exact assign_fullyQualifiedName _ _
      · rfl
    · split
      · exact assign_id _ _
      · rfl
  · rfl

theorem visitPage_assigned (cl : CommandLine) (assgs : QMap String) (i : Nat)
    (fields : List FormField) (st : Pass) :
    (visitPage cl assgs i fields st).2.assigned =
      if cl.isSetSetOption then fields.foldl (markFulfilled assgs) st.assigned
      else st.assigned := by
  induction fields generalizing st with
  | nil => simp [visitPage]
  | cons field rest ih =>
      simp only [visitPage, ih, visitField_assigned, List.foldl_cons]
      split <;> rfl

theorem visitPages_assigned (cl : CommandLine) (assgs : QMap String) (i : Nat)
    (doc : Document) (st : Pass) :
    (visitPages cl assgs i doc st).2.assigned =
      if cl.isSetSetOption then (allFields doc).foldl (markFulfilled assgs) st.assigned
      else st.assigned := by
  induction doc generalizing i st with
  | nil => simp [visitPages, allFields]
  | cons page rest ih =>
      simp only [visitPages, ih, visitPage_assigned, allFields, List.flatten_cons,
        List.foldl_append]
      split <;> rfl

/-- After the resolver has visited a list of fields, a key reads fulfilled exactly when it
did before or some field of the list was served under it. -/
theorem foldl_markFulfilled_value (assgs : QMap String) (fields : List FormField)
    (assigned : QMap Bool) (key : String) :
    (fields.foldl (markFulfilled assgs) assigned).value key = true ↔
      assigned.value key = true ∨ ∃ f ∈ fields, resolvedKey assgs f = some key := by
  induction fields generalizing assigned with
  | nil => simp
  | cons field rest ih =>
      rw [List.foldl_cons, ih]
      have hstep : (markFulfilled assgs assigned field).value key = true ↔
          assigned.value key = true ∨ resolvedKey assgs field = some key := by
        unfold markFulfilled
        cases hr : resolvedKey assgs field with
        | none => simp
        | some k =>
            simp only [QMap.value_insert, Option.some.injEq]
            by_cases hk : key = k
            · simp [hk]
            · have hk' : ¬ k = key := fun h => hk h.symm
              simp [hk, hk']
      rw [hstep]
      simp only [List.mem_cons, exists_eq_or_imp]
      tauto

/-- The resolver never changes the key sequence of flags that cover the keys of the
map. -/
theorem foldl_markFulfilled_keys (assgs : QMap String) (fields : List FormField)
    (assigned : QMap Bool)
    (h : ∀ k : String, assgs.contains k = true → assigned.contains k = true) :
    QMap.keys (fields.foldl (markFulfilled assgs) assigned) = QMap.keys assigned := by
  induction fields generalizing assigned with
  | nil => rfl
  | cons field rest ih =>
      have hstep : QMap.keys (markFulfilled assgs assigned field) = QMap.keys assigned := by
        unfold markFulfilled
        cases hr : resolvedKey assgs field with
        | none => rfl
        | some k =>
            exact QMap.keys_insert_of_contains _ _ _ (h k (resolvedKey_contains _ _ _ hr))
      rw [List.foldl_cons, ih, hstep]
      intro k hk
      rw [QMap.contains_iff, hstep, ← QMap.contains_iff]
      exact h k hk

/-- How often a key of the map is reported after the pass: once if no field was served
under it, never otherwise. -/
theorem count_notFound_after_pass (cl : CommandLine) (doc : Document) (i : Nat)
    (out err : List String) (key : String)
    (hkey : (parseAssignments cl.setOption).assgs.contains key = true) :
    (notFound (visitPages cl (parseAssignments cl.setOption).assgs i doc
        { assigned := (parseAssignments cl.setOption).assigned,
          out := out, err := err }).2.assigned).count (key ++ " not found!") =
      if ∃ f ∈ allFields doc, resolvedKey (parseAssignments cl.setOption).assgs f = some key
      then 0 else 1 := by
  have hfresh := parseAssignments_fresh cl.setOption
  have hset : cl.isSetSetOption = true := by
    unfold CommandLine.isSetSetOption
    cases hs : cl.setOption with
    | nil => rw [hs] at hkey; simp [parseAssignments, QMap.contains] at hkey
    | cons a l => rfl
  have hcover : ∀ k : String, (parseAssignments cl.setOption).assgs.contains k = true →
      (parseAssignments cl.setOption).assigned.contains k = true :=
    fun k hk => (hfresh.sameKeys k).2 hk
  rw [visitPages_assigned, if_pos hset]
  simp only
  have hkeys := foldl_markFulfilled_keys (parseAssignments cl.setOption).assgs
    (allFields doc) (parseAssignments cl.setOption).assigned hcover
  rw [count_notFound_of_nodup _ (by rw [hkeys]; exact hfresh.nodup), hkeys]
  have hmem : key ∈ QMap.keys (parseAssignments cl.setOption).assigned :=
    (QMap.contains_iff _ _).1 (hcover key hkey)
  have hval := foldl_markFulfilled_value (parseAssignments cl.setOption).assgs
    (allFields doc) (parseAssignments cl.setOption).assigned key
  rw [hfresh.allFalse key] at hval
  by_cases hex : ∃ f ∈ allFields doc,
      resolvedKey (parseAssignments cl.setOption).assgs f = some key
  · have ht := hval.2 (Or.inr hex)
    rw [if_pos hex, if_neg]
    rintro ⟨_, hf⟩
    rw [ht] at hf; cases hf
  · have hf : QMap.value (List.foldl (markFulfilled (parseAssignments cl.setOption).assgs)
        (parseAssignments cl.setOption).assigned (allFields doc)) key = false := by
      cases hv : QMap.value (List.foldl (markFulfilled (parseAssignments cl.setOption).assgs)
        (parseAssignments cl.setOption).assigned (allFields doc)) key with
      | false => rfl
      | true =>
          rcases hval.1 hv with h | h
          · cases h
          · exact absurd h hex
    rw [if_neg hex, if_pos ⟨hmem, hf⟩]

/-! ## Lemmas on choice fields -/

theorem indexOfFrom_of_not_mem (l : List String) (value : String) (i : Nat)
    (h : value ∉ l) : indexOfFrom l value i = -1 := by
  induction l generalizing i with
  | nil => rfl
  | cons x xs ih =>
      simp only [List.mem_cons, not_or] at h
      have hx : ¬ x = value := fun hx => h.1 hx.symm
      simp only [indexOfFrom, hx, if_false]
      exact ih (i + 1) h.2

/-- When the value occurs, `indexOf` (searching from position `i` of the whole list)
returns the position of its first occurrence. -/
theorem indexOfFrom_of_mem (l : List String) (value : String) (i : Nat) (h : value ∈ l) :
    ∃ j : Nat, indexOfFrom l value i = ((i + j : Nat) : Int) ∧ l[j]? = some value ∧
      ∀ j' : Nat, j' < j → l[j']? ≠ some value := by
  induction l generalizing i with
  | nil => cases h
  | cons x xs ih =>
      by_cases hx : x = value
      · refine ⟨0, ?_, ?_, ?_⟩
        · simp [indexOfFrom, hx]
        · simp [hx]
        · intro j' hj'; cases hj'
      · have hmem : value ∈ xs := by
          rcases List.mem_cons.1 h with h | h
          · exact absurd h.symm hx
          · exact h
        obtain ⟨j, h1, h2, h3⟩ := ih (i + 1) hmem
        refine ⟨j + 1, ?_, ?_, ?_⟩
        · simp only [indexOfFrom, hx, if_false, h1]
          congr 1; omega
        · simpa using h2
        · intro j' hj'
          cases j' with
          | zero => simpa using hx
          | succ n => simpa using h3 n (by omega)

theorem writable_iff (field : FormField) :
    writable field = true ↔ field.isReadOnly = false ∧ field.isVisible = true := by
  unfold writable
  cases field.isReadOnly <;> cases field.isVisible <;> simp

/-- The branch of `assign` for a writable closed choice field. -/
theorem assign_closed_choice (field : FormField) (choices : List String)
    (editChoice : String) (currentChoices : List Nat) (value : String)
    (hs : field.state = .FormChoice false choices editChoice currentChoices)
    (hw : writable field = true) :
    assign field value =
      if indexOf choices value ≥ 0 then
        ({ field with state :=
            .FormChoice false choices editChoice [(indexOf choices value).toNat] }, [])
      else (field, ["can't set " ++ field.fullyQualifiedName ++ " to " ++ value]) := by
  obtain ⟨h1, h2⟩ := (writable_iff field).1 hw
  unfold assign
  simp [h1, h2, hs]

theorem resolve_of_resolvedKey (assgs : QMap String) (assigned : QMap Bool)
    (field : FormField) (key : String) (h : resolvedKey assgs field = some key) :
    resolve assgs assigned field =
      { field := (assign field (assgs.value key)).1,
        assigned := assigned.insert key true,
        err := (assign field (assgs.value key)).2 } := by
  unfold resolvedKey at h
  unfold resolve
  simp only
  split_ifs at h ⊢ with h1 h2
  · cases h; rfl
  · cases h; rfl

theorem indexOf_nonneg_mem (l : List String) (value : String) (h : indexOf l value ≥ 0) :
    value ∈ l := by
  by_contra hn
  have := indexOfFrom_of_not_mem l value 0 hn
  unfold indexOf at h
  omega

/-- A label found by `indexOf` is the label read back by `at`. -/
theorem listAt_indexOf (l : List String) (value : String) (h : indexOf l value ≥ 0) :
    listAt l (indexOf l value).toNat = value := by
  obtain ⟨j, h1, h2, _⟩ := indexOfFrom_of_mem l value 0 (indexOf_nonneg_mem l value h)
  unfold indexOf listAt
  rw [h1]
  simp [List.getD_eq_getElem?_getD, h2]

theorem contentLoop_single (choices : List String) (i : Nat) :
    contentLoop choices [i] "" = listAt choices i := by
  have hempty : ("" : String).isEmpty = true := by decide
  simp [contentLoop, hempty]

/-- On a writable text field or editable choice field, `content` after `assign` is the
value assigned. -/
theorem content_assign_free_text (field : FormField) (value : String)
    (hw : writable field = true)
    (hkind : (∃ text, field.state = .FormText text) ∨
      (∃ choices editChoice currentChoices,
        field.state = .FormChoice true choices editChoice currentChoices)) :
    content (assign field value).1 = value ∧
    writable (assign field value).1 = true ∧
    ((∃ text, (assign field value).1.state = .FormText text) ∨
      (∃ choices editChoice currentChoices,
        (assign field value).1.state = .FormChoice true choices editChoice currentChoices)) := by
  obtain ⟨h1, h2⟩ := (writable_iff field).1 hw
  obtain ⟨fqn, id, ro, vis, st⟩ := field
  simp only at h1 h2
  subst h1 h2
  rcases hkind with ⟨text, hs⟩ | ⟨choices, editChoice, currentChoices, hs⟩
  · simp only at hs
    subst hs
    simp [assign, content, writable]
  · simp only at hs
    subst hs
    simp [assign, content, writable]

theorem isEmpty_append_comma (r x : String) : (r ++ "," ++ x).isEmpty = false := by
  cases h : (r ++ "," ++ x).isEmpty with
  | false => rfl
  | true =>
      have hd := congrArg String.data ((String.isEmpty_iff _).1 h)
      simp [String.data_append] at hd

/-- Once the string built so far is not empty, the loop of `content` puts a comma before
every further label. -/
theorem contentLoop_of_not_isEmpty (choices : List String) (currentChoices : List Nat)
    (r : String) (h : r.isEmpty = false) :
    contentLoop choices currentChoices r =
      String.intercalate.go r "," (currentChoices.map (listAt choices)) := by
  induction currentChoices generalizing r with
  | nil => rfl
  | cons i rest ih =>
      simp only [contentLoop, h, Bool.not_false, if_true, List.map_cons,
        String.intercalate.go]
      exact ih _ (isEmpty_append_comma r _)

/-- The loop of `content`, started on the empty string, joins by commas the selected labels
that remain after the leading empty labels are dropped. -/
theorem contentLoop_empty (choices : List String) (currentChoices : List Nat) :
    contentLoop choices currentChoices "" =
      ",".intercalate ((currentChoices.map (listAt choices)).dropWhile String.isEmpty) := by
  have hempty : ("" : String).isEmpty = true := by decide
  induction currentChoices with
  | nil => rfl
  | cons i rest ih =>
      simp only [contentLoop, hempty, Bool.not_true, Bool.false_eq_true, if_false,
        String.empty_append, List.map_cons, List.dropWhile_cons]
      cases hl : (listAt choices i).isEmpty with
      | true =>
          rw [(String.isEmpty_iff _).1 hl, ih]
          simp
      | false =>
          rw [contentLoop_of_not_isEmpty choices rest _ hl]
          simp [String.intercalate]

/-- When the first selected label is not empty, `content` of a closed choice field is the
comma-joined list of the selected labels. -/
theorem contentLoop_eq_spec (choices : List String) (currentChoices : List Nat)
    (h : ∀ i ∈ currentChoices.head?, (listAt choices i).isEmpty = false) :
    contentLoop choices currentChoices "" = specClosedRead choices currentChoices := by
  rw [contentLoop_empty]
  unfold specClosedRead
  cases currentChoices with
  | nil => rfl
  | cons i rest =>
      have hi := h i (by simp)
      simp [List.dropWhile_cons, hi]

/-! ## Lemmas on UTF-8 -/

theorem indexOfCharFrom_of_not_mem (l : List Char) (ch : Char) (i : Nat) (h : ch ∉ l) :
    indexOfCharFrom l ch i = -1 := by
  induction l generalizing i with
  | nil => rfl
  | cons x xs ih =>
      simp only [List.mem_cons, not_or] at h
      have hx : ¬ x = ch := fun hx => h.1 hx.symm
      simp only [indexOfCharFrom, hx, if_false]
      exact ih (i + 1) h.2

/-- The position found by `indexOf(ch)` is the length of the longest prefix without
`ch`. -/
theorem indexOfCharFrom_of_mem (l : List Char) (ch : Char) (i : Nat) (h : ch ∈ l) :
    indexOfCharFrom l ch i = ((i + (l.takeWhile (fun x => x != ch)).length : Nat) : Int) := by
  induction l generalizing i with
  | nil => cases h
  | cons x xs ih =>
      by_cases hx : x = ch
      · simp [indexOfCharFrom, hx, List.takeWhile_cons]
      · have hmem : ch ∈ xs := by
          rcases List.mem_cons.1 h with h | h
          · exact absurd h.symm hx
          · exact h
        simp only [indexOfCharFrom, hx, if_false, ih (i + 1) hmem, List.takeWhile_cons,
          bne_iff_ne, ne_eq, not_false_eq_true, decide_True, if_true, List.length_cons]
        congr 1
        omega

/-- One step of the loop over the operands does what the specification says of one
operand. -/
theorem parseStep_eq_spec (st : Assignments) (assg : String) :
    parseStep st assg =
      match specSplit assg with
      | some (k, v) =>
          { assgs := st.assgs.insert k v, assigned := st.assigned.insert k false,
            err := st.err }
      | none => { st with err := st.err ++ ["not an assigment " ++ assg] } := by
  unfold parseStep specSplit indexOfChar
  by_cases h : Char.ofNat 61 ∈ assg.data
  · have hidx := indexOfCharFrom_of_mem assg.data (Char.ofNat 61) 0 h
    have hch : (Char.ofNat 61) = '=' := rfl
    rw [← hch, hidx]
    simp only [if_pos h, Nat.zero_add, Int.natCast_nonneg, ge_iff_le, if_true, Int.toNat_ofNat,
      left, mid]
    have hsplit := List.takeWhile_append_dropWhile (fun x => x != Char.ofNat 61) assg.data
    have hgen : ∀ a b l : List Char, a ++ b = l →
        List.take a.length l = a ∧ List.drop (a.length + 1) l = List.drop 1 b := by
      intro a b l hl
      subst hl
      exact ⟨List.take_left _ _, by rw [← List.drop_drop, List.drop_left]⟩
    obtain ⟨h1, h2⟩ := hgen _ _ _ hsplit
    rw [h1, h2]
  · have hidx := indexOfCharFrom_of_not_mem assg.data (Char.ofNat 61) 0 h
    have hch : (Char.ofNat 61) = '=' := rfl
    rw [← hch, hidx]
    simp [if_neg h]

/-- The specification's split of `key=value`, for a key without `=`: the key may be
empty, the value may be empty and may contain further `=`. -/
theorem specSplit_key_value (key value : String) (h : Char.ofNat 61 ∉ key.data) :
    specSplit (key ++ "=" ++ value) = some (key, value) := by
  have hdata : (key ++ "=" ++ value).data = key.data ++ Char.ofNat 61 :: value.data := by
    simp only [String.data_append]
    rw [List.append_assoc]
    rfl
  have htake : ∀ l : List Char, Char.ofNat 61 ∉ l → ∀ t : List Char,
      (l ++ Char.ofNat 61 :: t).takeWhile (fun ch => ch != Char.ofNat 61) = l ∧
      (l ++ Char.ofNat 61 :: t).dropWhile (fun ch => ch != Char.ofNat 61)
        = Char.ofNat 61 :: t := by
    intro l
    induction l with
    | nil => intro _ t; simp [List.takeWhile_cons, List.dropWhile_cons]
    | cons x xs ih =>
        intro hx t
        simp only [List.mem_cons, not_or] at hx
        have hne : x ≠ Char.ofNat 61 := fun h => hx.1 h.symm
        have := ih hx.2 t
        simp [List.takeWhile_cons, List.dropWhile_cons, hne, this.1, this.2]
  unfold specSplit
  rw [hdata, if_pos (by simp)]
  rw [(htake key.data h value.data).1, (htake key.data h value.data).2]
  rfl

theorem specSplit_none (assg : String) (h : Char.ofNat 61 ∉ assg.data) :
    specSplit assg = none := by
  unfold specSplit
  rw [if_neg h]

/-- The maps built from a state by further operands agree, key by key, with the
specification's fold started from what the state holds under the key. -/
theorem foldl_parseStep_assgs (values : List String) (st : Assignments) (key : String)
    (acc : Option String)
    (h1 : st.assgs.contains key = true ↔ acc.isSome = true)
    (h2 : ∀ v, acc = some v → st.assgs.value key = v) :
    ((values.foldl parseStep st).assgs.contains key = true ↔
      (values.foldl
        (fun acc assg =>
          match specSplit assg with
          | some (k, v) => if k = key then some v else acc
          | none => acc) acc).isSome = true) ∧
    (∀ v, values.foldl
        (fun acc assg =>
          match specSplit assg with
          | some (k, v) => if k = key then some v else acc
          | none => acc) acc = some v →
      (values.foldl parseStep st).assgs.value key = v) := by
  induction values generalizing st acc with
  | nil => exact ⟨h1, h2⟩
  | cons assg rest ih =>
      simp only [List.foldl_cons]
      apply ih
      · rw [parseStep_eq_spec]
        cases hs : specSplit assg with
        | none => simpa using h1
        | some kv =>
            obtain ⟨k, v⟩ := kv
            simp only [QMap.contains_insert]
            by_cases hk : k = key
            · subst hk; simp
            · have hk' : ¬ key = k := fun h => hk h.symm
              simp only [hk, hk', if_false, false_or]
              exact h1
      · rw [parseStep_eq_spec]
        cases hs : specSplit assg with
        | none => simpa using h2
        | some kv =>
            obtain ⟨k, v⟩ := kv
            simp only [QMap.value_insert]
            by_cases hk : k = key
            · subst hk; simp
            · have hk' : ¬ key = k := fun h => hk h.symm
              simp only [hk, hk', if_false]
              exact h2

/-- The lines written while the operands are read: one for every operand without `=`, in
the order of the operands. -/
theorem foldl_parseStep_err (values : List String) (st : Assignments) :
    (values.foldl parseStep st).err =
      st.err ++ (values.filter (fun assg => decide (Char.ofNat 61 ∉ assg.data))).map
        (fun assg => "not an assigment " ++ assg) := by
  induction values generalizing st with
  | nil => simp
  | cons assg rest ih =>
      rw [List.foldl_cons, ih, parseStep_eq_spec]
      by_cases h : Char.ofNat 61 ∈ assg.data
      · have hs : specSplit assg = some
            (String.mk (assg.data.takeWhile (fun ch => ch != Char.ofNat 61)),
              String.mk ((assg.data.dropWhile (fun ch => ch != Char.ofNat 61)).drop 1)) := by
          unfold specSplit; rw [if_pos h]
        rw [hs]
        simp [List.filter_cons, h]
      · rw [specSplit_none assg h]
        simp [List.filter_cons, h]

/-! ## Lemmas on the visit of a field and on a whole run -/

/-- Assigning the same value twice is the same as assigning it once. -/
theorem assign_idem (field : FormField) (value : String) :
    assign (assign field value).1 value = assign field value := by
  obtain ⟨fqn, id, ro, vis, st⟩ := field
  cases ro <;> cases vis <;> try (simp [assign]; done)
  cases st with
  | FormText text => simp [assign]
  | FormChoice isEditable choices editChoice currentChoices =>
      cases isEditable with
      | true => simp [assign]
      | false =>
          by_cases hidx : indexOf choices value ≥ 0
          · simp [assign, hidx]
          · simp [assign, hidx]
  | FormButton buttonType caption state =>
      cases buttonType <;> simp [assign]
  | FormSignature => simp [assign]

theorem nameFilled_fullyQualifiedName (cl : CommandLine) (field : FormField) :
    (nameFilled cl field).fullyQualifiedName = field.fullyQualifiedName := by
  unfold nameFilled
  split
  · exact assign_fullyQualifiedName _ _
  · rfl

theorem nameFilled_id (cl : CommandLine) (field : FormField) :
    (nameFilled cl field).id = field.id := by
  unfold nameFilled
  split
  · exact assign_id _ _
  · rfl

theorem resolvedKey_nameFilled (cl : CommandLine) (assgs : QMap String)
    (field : FormField) :
    resolvedKey assgs (nameFilled cl field) = resolvedKey assgs field := by
  unfold resolvedKey
  rw [nameFilled_fullyQualifiedName, nameFilled_id]

/-- The field after its visit: the name-fill first, then the value of the key under which
the resolver serves it. -/
theorem visited_eq (cl : CommandLine) (assgs : QMap String) (field : FormField) :
    visited cl assgs field =
      if cl.isSetSetOption then
        match resolvedKey assgs field with
        | some key => (assign (nameFilled cl field) (assgs.value key)).1
        | none => nameFilled cl field
      else nameFilled cl field := by
  have hfill : (if cl.fillfieldOption then assign field field.fullyQualifiedName
      else (field, [])).1 = nameFilled cl field := by
    unfold nameFilled
    split <;> rfl
  unfold visited visitField
  simp only [hfill]
  split
  · cases hr : resolvedKey assgs field with
    | none =>
        have hr' := hr
        rw [← resolvedKey_nameFilled cl] at hr'
        unfold resolvedKey at hr'
        unfold resolve
        simp only
        split_ifs at hr' ⊢
        rfl
    | some key =>
        have hr' := hr
        rw [← resolvedKey_nameFilled cl] at hr'
        rw [resolve_of_resolvedKey _ _ _ key hr']
  · rfl

theorem visitPage_out (cl : CommandLine) (assgs : QMap String) (i : Nat)
    (fields : List FormField) (st : Pass) :
    (visitPage cl assgs i fields st).2.out =
      st.out ++ (if cl.listOption then fields.map (listLine i) else []) := by
  induction fields generalizing st with
  | nil => simp [visitPage]
  | cons field rest ih =>
      simp only [visitPage, ih]
      split <;> simp

/-- What the pass writes to standard output: under `-l` the lines for the fields as they
are given, nothing otherwise. -/
theorem visitPages_out (cl : CommandLine) (assgs : QMap String) (i : Nat)
    (doc : Document) (st : Pass) :
    (visitPages cl assgs i doc st).2.out =
      st.out ++ (if cl.listOption then listing i doc else []) := by
  induction doc generalizing i st with
  | nil => simp [visitPages, listing]
  | cons page rest ih =>
      simp only [visitPages, ih, visitPage_out, listing]
      split <;> simp

/-- Standard output of a run that could load its source. -/
theorem main_out (engine : Engine) (cl : CommandLine) (src : String)
    (more : List String) (doc : Document)
    (hargs : cl.args = src :: more) (hload : engine.load src = some doc) :
    (main engine cl).out = if cl.listOption then listing 0 doc else [] := by
  unfold main
  simp only [hargs, hload, parsed_eq, visitPages_out, List.nil_append]
  cases more with
  | nil => rfl
  | cons dst rest =>
      simp only
      split_ifs <;> rfl

/-- The call of `convert()` in a run that could load its source. -/
theorem main_convertCall (engine : Engine) (cl : CommandLine) (src : String)
    (more : List String) (doc : Document)
    (hargs : cl.args = src :: more) (hload : engine.load src = some doc) :
    (main engine cl).convertCall =
      match more with
      | dst :: _ =>
          if cl.isSetSetOption || cl.fillfieldOption then
            some (if dst = "-" then "/dev/stdout" else dst,
              doc.map (List.map (visited cl (parseAssignments cl.setOption).assgs)))
          else none
      | [] => none := by
  unfold main
  simp only [hargs, hload, parsed_eq, visitPages_fields]
  cases more with
  | nil => rfl
  | cons dst rest =>
      simp only
      split_ifs <;> rfl

/-- The exit status of a run that could load its source. -/
theorem main_status (engine : Engine) (cl : CommandLine) (src : String)
    (more : List String) (doc : Document)
    (hargs : cl.args = src :: more) (hload : engine.load src = some doc) :
    (main engine cl).status =
      match more with
      | dst :: _ =>
          if cl.isSetSetOption || cl.fillfieldOption then
            if engine.convert
                (doc.map (List.map (visited cl (parseAssignments cl.setOption).assgs)))
                (if dst = "-" then "/dev/stdout" else dst)
            then 0 else 1
          else 0
      | [] => 0 := by
  unfold main
  simp only [hargs, hload, parsed_eq, visitPages_fields]
  cases more with
  | nil => rfl
  | cons dst rest =>
      simp only
      split_ifs <;> simp_all

/-- C1. A field whose read-only flag is set or whose visible flag is clear is not changed
by `assign`, whatever the value, and nothing is written to standard error; hence the visit
of the field, the pass over a document and a whole run leave the field at its position as
it was, with the same `content`, for every combination of `-F` and every assignment map. -/
theorem C1_readonly_or_hidden_field_unchanged (field : FormField)
    (h : field.isReadOnly = true ∨ field.isVisible = false) :
    (∀ value : String, assign field value = (field, [])) ∧
    (∀ (cl : CommandLine) (assgs : QMap String) (assigned : QMap Bool),
      (visitField cl assgs assigned field).field = field) ∧
    (∀ (cl : CommandLine) (assgs : QMap String) (i : Nat) (doc : Document) (st : Pass)
        (p k : Nat), fieldAt doc p k = some field →
      fieldAt (visitPages cl assgs i doc st).1 p k = some field ∧
      ((fieldAt (visitPages cl assgs i doc st).1 p k).map content = some (content field))) ∧
    (∀ (engine : Engine) (cl : CommandLine) (src : String) (more : List String)
        (doc : Document) (p k : Nat),
      cl.args = src :: more → engine.load src = some doc → fieldAt doc p k = some field →
      ∃ doc', (main engine cl).document = some doc' ∧ fieldAt doc' p k = some field) := by
  have hv : ∀ (cl : CommandLine) (assgs : QMap String), visited cl assgs field = field := by
    intro cl assgs
    unfold visited visitField resolve
    simp only [assign_of_not_writable field _ h, ite_self]
    split_ifs <;> simp only [assign_of_not_writable field _ h]
  refine ⟨fun value => assign_of_not_writable field value h, ?_, ?_, ?_⟩
  · intro cl assgs assigned
    rw [visitField_field, hv]
  · intro cl assgs i doc st p k hk
    rw [visitPages_fields, fieldAt_map, hk]
    simp [hv]
  · intro engine cl src more doc p k hargs hload hk
    refine ⟨_, main_document engine cl src more doc hargs hload, ?_⟩
    rw [fieldAt_map, hk]
    simp [hv]

/-- Witness of C1: the read-only text field `name` keeps `Bob` when `Alice` is assigned. -/
theorem C1_readonly_or_hidden_field_unchanged_witness :
    (sampleReadOnlyText.isReadOnly = true ∨ sampleReadOnlyText.isVisible = false) ∧
    assign sampleReadOnlyText "Alice" = (sampleReadOnlyText, []) :=
  ⟨Or.inl rfl, (C1_readonly_or_hidden_field_unchanged sampleReadOnlyText (Or.inl rfl)).1 "Alice"⟩

/-- C2. The resolver step does exactly one of three things.  If the fully-qualified name
is a key of the map, the field becomes `assign(F, M[fqn])` and `assigned[fqn] = true` is
the only change of the flags: every other key, the decimal id included, keeps its flag
and its presence.  Otherwise, if the decimal id is a key, the same happens with the id.
Otherwise the field and the flags are left as they are and nothing is written. -/
theorem C2_resolver_step (assgs : QMap String) (assigned : QMap Bool) (field : FormField) :
    (assgs.contains field.fullyQualifiedName = true →
      resolve assgs assigned field =
        { field := (assign field (assgs.value field.fullyQualifiedName)).1,
          assigned := assigned.insert field.fullyQualifiedName true,
          err := (assign field (assgs.value field.fullyQualifiedName)).2 } ∧
      (resolve assgs assigned field).assigned.value field.fullyQualifiedName = true ∧
      ∀ k : String, k ≠ field.fullyQualifiedName →
        (resolve assgs assigned field).assigned.value k = assigned.value k ∧
        ((resolve assgs assigned field).assigned.contains k = true ↔
          assigned.contains k = true)) ∧
    (assgs.contains field.fullyQualifiedName = false →
      assgs.contains (number field.id) = true →
      resolve assgs assigned field =
        { field := (assign field (assgs.value (number field.id))).1,
          assigned := assigned.insert (number field.id) true,
          err := (assign field (assgs.value (number field.id))).2 } ∧
      (resolve assgs assigned field).assigned.value (number field.id) = true ∧
      ∀ k : String, k ≠ number field.id →
        (resolve assgs assigned field).assigned.value k = assigned.value k ∧
        ((resolve assgs assigned field).assigned.contains k = true ↔
          assigned.contains k = true)) ∧
    (assgs.contains field.fullyQualifiedName = false →
      assgs.contains (number field.id) = false →
      resolve assgs assigned field = { field := field, assigned := assigned, err := [] }) := by
  have key : ∀ (key : String) (k : String), k ≠ key →
      (assigned.insert key true).value k = assigned.value k ∧
      ((assigned.insert key true).contains k = true ↔ assigned.contains k = true) := by
    intro key k hk
    refine ⟨by rw [QMap.value_insert, if_neg hk], ?_⟩
    rw [QMap.contains_insert]
    exact ⟨fun h => h.resolve_left hk, Or.inr⟩
  refine ⟨?_, ?_, ?_⟩
  · intro h
    have hr : resolve assgs assigned field =
        { field := (assign field (assgs.value field.fullyQualifiedName)).1,
          assigned := assigned.insert field.fullyQualifiedName true,
          err := (assign field (assgs.value field.fullyQualifiedName)).2 } := by
      simp [resolve, h]
    rw [hr]
    exact ⟨rfl, by simp [QMap.value_insert], key _⟩
  · intro h1 h2
    have hr : resolve assgs assigned field =
        { field := (assign field (assgs.value (number field.id))).1,
          assigned := assigned.insert (number field.id) true,
          err := (assign field (assgs.value (number field.id))).2 } := by
      simp [resolve, h1, h2]
    rw [hr]
    exact ⟨rfl, by simp [QMap.value_insert], key _⟩
  · intro h1 h2
    simp [resolve, h1, h2]

/-- Witness of C2: the text field `name` with id 7 and the map `7 ↦ x, name ↦ y`: the
name is served, the field holds `y`, and the flag of `7` stays false. -/
theorem C2_resolver_step_witness :
    QMap.contains [("7", "x"), ("name", "y")] sampleText.fullyQualifiedName = true ∧
    (resolve [("7", "x"), ("name", "y")] [("7", false), ("name", false)] sampleText).field
      = { sampleText with state := .FormText "y" } ∧
    (resolve [("7", "x"), ("name", "y")] [("7", false), ("name", false)]
      sampleText).assigned.value "7" = false :=
  ⟨by decide,
   by rw [((C2_resolver_step [("7", "x"), ("name", "y")] [("7", false), ("name", false)]
      sampleText).1 (by decide)).1]; decide,
   by rw [(((C2_resolver_step [("7", "x"), ("name", "y")] [("7", false), ("name", false)]
      sampleText).1 (by decide)).2.2 "7" (by decide)).1]; decide⟩

/-- Counterexample to C3 as stated: one writable text field `name` with object id 7 and
the operands `name=Alice`, `7=Bob`.  The key `7` matches exactly one field, by its decimal
id, and the field is writable; yet the name is served first and `7 not found!` is
written. -/
theorem C3_counterexample_key_matching_by_id_reported :
    (parseAssignments (sampleSet ["name=Alice", "7=Bob"]).setOption).assgs.contains "7" = true ∧
    (allFields [[sampleText]]).filter (fun f => matchesKey f "7") = [sampleText] ∧
    writable sampleText = true ∧
    (main (sampleEngine [[sampleText]]) (sampleSet ["name=Alice", "7=Bob"])).err
      = ["7 not found!"] := by
  decide

/-- C3, amended. For every document and every list of `-s` operands, and every key of the
assignment map: if some field has the key as its fully-qualified name, or has it as its
decimal object id while the field's own fully-qualified name is not a key of the map, then
no `KEY not found!` line is written by the loop after the pass (this covers a key matching
exactly one field, writable or not); and if no field has the key as its name or its
decimal id, exactly one `KEY not found!` line is written. -/
theorem C3_fulfilment_accounting (cl : CommandLine) (doc : Document) (i : Nat)
    (out err : List String) (key : String)
    (hkey : (parseAssignments cl.setOption).assgs.contains key = true) :
    ((∃ f ∈ allFields doc, f.fullyQualifiedName = key ∨
        (number f.id = key ∧
          (parseAssignments cl.setOption).assgs.contains f.fullyQualifiedName = false)) →
      key ++ " not found!" ∉
        notFound (visitPages cl (parseAssignments cl.setOption).assgs i doc
          { assigned := (parseAssignments cl.setOption).assigned,
            out := out, err := err }).2.assigned) ∧
    ((∀ f ∈ allFields doc, matchesKey f key = false) →
      (notFound (visitPages cl (parseAssignments cl.setOption).assgs i doc
          { assigned := (parseAssignments cl.setOption).assigned,
            out := out, err := err }).2.assigned).count (key ++ " not found!") = 1) := by
  have hcount := count_notFound_after_pass cl doc i out err key hkey
  constructor
  · rintro ⟨f, hf, hm⟩
    have hex : ∃ f ∈ allFields doc,
        resolvedKey (parseAssignments cl.setOption).assgs f = some key := by
      refine ⟨f, hf, (resolvedKey_eq_some _ _ _).2 ?_⟩
      rcases hm with hm | ⟨hm, hn⟩
      · exact Or.inl ⟨hm, hkey⟩
      · exact Or.inr ⟨hm, hkey, hn⟩
    rw [if_pos hex] at hcount
    exact List.count_eq_zero.1 hcount
  · intro hnone
    have hex : ¬ ∃ f ∈ allFields doc,
        resolvedKey (parseAssignments cl.setOption).assgs f = some key := by
      rintro ⟨f, hf, hr⟩
      have hm := hnone f hf
      simp only [matchesKey, Bool.or_eq_false_iff, beq_eq_false_iff_ne] at hm
      rcases (resolvedKey_eq_some _ _ _).1 hr with ⟨h, _⟩ | ⟨h, _, _⟩
      · exact hm.1 h
      · exact hm.2 h
    rw [if_neg hex] at hcount
    exact hcount

/-- Witness of C3: the text field `name` and the operands `name=Alice`, `missing=x`; the
key `missing` matches no field and is reported exactly once. -/
theorem C3_fulfilment_accounting_witness :
    (parseAssignments (sampleSet ["name=Alice", "missing=x"]).setOption).assgs.contains
      "missing" = true ∧
    (notFound (visitPages (sampleSet ["name=Alice", "missing=x"])
        (parseAssignments (sampleSet ["name=Alice", "missing=x"]).setOption).assgs 0
        [[sampleText]]
        { assigned := (parseAssignments (sampleSet ["name=Alice", "missing=x"]).setOption).assigned,
          out := [], err := [] }).2.assigned).count ("missing" ++ " not found!") = 1 :=
  ⟨by decide,
   (C3_fulfilment_accounting (sampleSet ["name=Alice", "missing=x"]) [[sampleText]] 0 [] []
      "missing" (by decide)).2 (by decide)⟩

/-- Counterexample to C4 as stated: the closed choice `color` with the labels Red, Green,
Blue and `-s color=Purple`.  The field is unchanged and `can't set color to Purple` is
written, but the key is marked fulfilled and no `color not found!` line follows. -/
theorem C4_counterexample_rejected_value_counts_as_found :
    (main (sampleEngine [[sampleColor]]) (sampleSet ["color=Purple"])).err
      = ["can't set color to Purple"] ∧
    "color not found!" ∉ (main (sampleEngine [[sampleColor]]) (sampleSet ["color=Purple"])).err ∧
    (main (sampleEngine [[sampleColor]]) (sampleSet ["color=Purple"])).document
      = some [[sampleColor]] ∧
    (resolve [("color", "Purple")] [("color", false)] sampleColor).assigned
      = [("color", true)] := by
  decide

/-- C4, amended. When the resolver serves a writable closed choice field under a key (its
fully-qualified name, or its decimal id when the name is no key) and the value stored
under the key equals none of the labels, then the field is left unchanged, the line
`can't set <fully-qualified-name> to <value>` is written, the key is marked fulfilled all
the same, and therefore no `<key> not found!` line is written after the pass over any
document that holds the field. -/
theorem C4_rejected_choice_value (cl : CommandLine) (field : FormField) (key : String)
    (choices : List String) (editChoice : String) (currentChoices : List Nat)
    (hs : field.state = .FormChoice false choices editChoice currentChoices)
    (hw : writable field = true)
    (hres : resolvedKey (parseAssignments cl.setOption).assgs field = some key)
    (hval : (parseAssignments cl.setOption).assgs.value key ∉ choices) :
    (∀ assigned : QMap Bool,
      resolve (parseAssignments cl.setOption).assgs assigned field =
        { field := field,
          assigned := assigned.insert key true,
          err := ["can't set " ++ field.fullyQualifiedName ++ " to " ++
            (parseAssignments cl.setOption).assgs.value key] } ∧
      (resolve (parseAssignments cl.setOption).assgs assigned field).assigned.value key
        = true) ∧
    (∀ (doc : Document) (i : Nat) (out err : List String), field ∈ allFields doc →
      key ++ " not found!" ∉
        notFound (visitPages cl (parseAssignments cl.setOption).assgs i doc
          { assigned := (parseAssignments cl.setOption).assigned,
            out := out, err := err }).2.assigned) := by
  have hassign : assign field ((parseAssignments cl.setOption).assgs.value key) =
      (field, ["can't set " ++ field.fullyQualifiedName ++ " to " ++
        (parseAssignments cl.setOption).assgs.value key]) := by
    rw [assign_closed_choice field choices editChoice currentChoices _ hs hw]
    have hneg : indexOf choices ((parseAssignments cl.setOption).assgs.value key) = -1 :=
      indexOfFrom_of_not_mem _ _ 0 hval
    rw [hneg]
    rfl
  constructor
  · intro assigned
    have hr := resolve_of_resolvedKey _ assigned field key hres
    rw [hassign] at hr
    rw [hr]
    exact ⟨rfl, by simp [QMap.value_insert]⟩
  · intro doc i out err hmem
    have hcount := count_notFound_after_pass cl doc i out err key
      (resolvedKey_contains _ _ _ hres)
    rw [if_pos ⟨field, hmem, hres⟩] at hcount
    exact List.count_eq_zero.1 hcount

/-- Witness of C4: the closed choice `color` and `-s color=Purple`. -/
theorem C4_rejected_choice_value_witness :
    (sampleColor.state = .FormChoice false ["Red", "Green", "Blue"] "" [0] ∧
      writable sampleColor = true ∧
      resolvedKey (parseAssignments (sampleSet ["color=Purple"]).setOption).assgs sampleColor
        = some "color" ∧
      (parseAssignments (sampleSet ["color=Purple"]).setOption).assgs.value "color"
        ∉ ["Red", "Green", "Blue"]) ∧
    "color" ++ " not found!" ∉
      notFound (visitPages (sampleSet ["color=Purple"])
        (parseAssignments (sampleSet ["color=Purple"]).setOption).assgs 0 [[sampleColor]]
        { assigned := (parseAssignments (sampleSet ["color=Purple"]).setOption).assigned,
          out := [], err := [] }).2.assigned :=
  ⟨by decide,
   (C4_rejected_choice_value (sampleSet ["color=Purple"]) sampleColor "color"
      ["Red", "Green", "Blue"] "" [0] rfl (by decide) (by decide) (by decide)).2
      [[sampleColor]] 0 [] [] (by decide)⟩

/-- Counterexample to C5 as stated: a writable selected radio button with the caption `A`
lists as `true`; writing `true` back clears it, and it then lists as `false`. -/
theorem C5_counterexample_radio_round_trip :
    sampleRadio.state = .FormButton .Radio "A" true ∧
    content sampleRadio = "true" ∧
    (assign sampleRadio (content sampleRadio)).1.state = .FormButton .Radio "A" false ∧
    content (assign sampleRadio (content sampleRadio)).1 = "false" := by
  decide

/-- C5, amended. Writing back the listed value of a field leaves `content` as it was for
every field that is not a writable radio button: text, editable choice, closed choice,
checkbox, push button, signature or unknown, with any flags, and radio buttons that are
read-only or invisible.  For a writable radio button it does so exactly when the state of
the button already equals the outcome of comparing its caption with the listed value. -/
theorem C5_round_trip (field : FormField) :
    content (assign field (content field)).1 = content field ↔
      ∀ (caption : String) (state : Bool),
        field.state = .FormButton .Radio caption state → writable field = true →
        cstrEqQString (constData (toUtf8 caption)) (content field) = state := by
  by_cases hw : writable field = true
  · obtain ⟨h1, h2⟩ := (writable_iff field).1 hw
    obtain ⟨fqn, id, ro, vis, st⟩ := field
    simp only at h1 h2
    subst h1 h2
    cases st with
    | FormText text => simp [assign, content]
    | FormChoice isEditable choices editChoice currentChoices =>
        cases isEditable with
        | true => simp [assign, content]
        | false =>
            simp only [reduceCtorEq, false_implies, implies_true, iff_true]
            rw [assign_closed_choice _ choices editChoice currentChoices _ rfl hw]
            split
            · rename_i hidx
              simp only [content, Bool.false_eq_true, if_false] at hidx ⊢
              rw [contentLoop_single, listAt_indexOf _ _ hidx]
            · rfl
    | FormButton buttonType caption state =>
        cases buttonType with
        | Push => simp [assign, content]
        | CheckBox => cases state <;> simp [assign, content]
        | Radio =>
            simp only [FieldState.FormButton.injEq, true_and, and_imp, forall_eq_apply_imp_iff,
              forall_eq', hw, forall_const]
            cases state <;>
              cases hb : cstrEqQString (constData (toUtf8 caption)) "true" <;>
              cases hb' : cstrEqQString (constData (toUtf8 caption)) "false" <;>
              simp [assign, content, hb, hb']
    | FormSignature => simp [assign, content]
  · have hnw : field.isReadOnly = true ∨ field.isVisible = false := by
      unfold writable at hw
      cases h1 : field.isReadOnly <;> cases h2 : field.isVisible <;> simp [h1, h2] at hw ⊢
    rw [assign_of_not_writable field _ hnw]
    simp [hw]

/-- C6. With `-F` and an assignment map that holds `BAR` under `FOO`, every writable text
field or editable choice field whose fully-qualified name is `FOO` reads `BAR` after its
visit, not the name written by the name-fill just before: this holds for the visit, for
the pass over any document at the field's position, and for a whole run. -/
theorem C6_assignment_overrides_name_fill (cl : CommandLine) (assgs : QMap String)
    (field : FormField) (FOO BAR : String)
    (hF : cl.fillfieldOption = true) (hS : cl.isSetSetOption = true)
    (hname : field.fullyQualifiedName = FOO)
    (hkey : assgs.contains FOO = true) (hval : assgs.value FOO = BAR)
    (hw : writable field = true)
    (hkind : (∃ text, field.state = .FormText text) ∨
      (∃ choices editChoice currentChoices,
        field.state = .FormChoice true choices editChoice currentChoices)) :
    content (assign field field.fullyQualifiedName).1 = FOO ∧
    (∀ assigned : QMap Bool, content (visitField cl assgs assigned field).field = BAR) ∧
    (∀ (i : Nat) (doc : Document) (st : Pass) (p k : Nat), fieldAt doc p k = some field →
      (fieldAt (visitPages cl assgs i doc st).1 p k).map content = some BAR) ∧
    (∀ (engine : Engine) (src : String) (more : List String) (doc : Document) (p k : Nat),
      assgs = (parseAssignments cl.setOption).assgs →
      cl.args = src :: more → engine.load src = some doc → fieldAt doc p k = some field →
      ∃ doc', (main engine cl).document = some doc' ∧
        (fieldAt doc' p k).map content = some BAR) := by
  obtain ⟨hfill, hfw, hfkind⟩ := content_assign_free_text field field.fullyQualifiedName hw hkind
  have hv : content (visited cl assgs field) = BAR := by
    have hfqn : (assign field field.fullyQualifiedName).1.fullyQualifiedName = FOO := by
      rw [assign_fullyQualifiedName, hname]
    have hres : visited cl assgs field =
        (assign (assign field field.fullyQualifiedName).1 (assgs.value FOO)).1 := by
      unfold visited visitField resolve
      simp [hF, hS, hfqn, hkey]
    rw [hres, (content_assign_free_text _ _ hfw hfkind).1, hval]
  refine ⟨by rw [hfill, hname], ?_, ?_, ?_⟩
  · intro assigned
    rw [visitField_field, hv]
  · intro i doc st p k hk
    rw [visitPages_fields, fieldAt_map, hk]
    simp [hv]
  · intro engine src more doc p k hassgs hargs hload hk
    refine ⟨_, main_document engine cl src more doc hargs hload, ?_⟩
    rw [fieldAt_map, hk, ← hassgs]
    simp [hv]

/-- Witness of C6: `pdffill -F -s name=Alice` on the text field `name`: it reads `Alice`
after the visit. -/
theorem C6_assignment_overrides_name_fill_witness :
    (sampleFillAndSet.fillfieldOption = true ∧ sampleFillAndSet.isSetSetOption = true ∧
      QMap.contains [("name", "Alice")] "name" = true ∧
      QMap.value [("name", "Alice")] "name" = "Alice" ∧ writable sampleText = true) ∧
    content (visitField sampleFillAndSet [("name", "Alice")] [("name", false)]
      sampleText).field = "Alice" :=
  ⟨by decide,
   (C6_assignment_overrides_name_fill sampleFillAndSet [("name", "Alice")] sampleText
      "name" "Alice" rfl (by decide) rfl (by decide) (by decide) (by decide)
      (Or.inl ⟨"", rfl⟩)).2.1 [("name", false)]⟩

/-- C7. For a writable closed choice field with the labels `choices` and a value `value`:
if some label equals the value, `assign` makes the selection the singleton of the smallest
index whose label equals the value, whatever was selected before, changes nothing else
and writes nothing; if no label equals the value, the field is unchanged and the line
`can't set <fully-qualified-name> to <value>` is written. -/
theorem C7_closed_choice_write (field : FormField) (choices : List String)
    (editChoice : String) (currentChoices : List Nat) (value : String)
    (hs : field.state = .FormChoice false choices editChoice currentChoices)
    (hw : writable field = true) :
    (value ∈ choices →
      ∃ i : Nat, choices[i]? = some value ∧ (∀ j : Nat, j < i → choices[j]? ≠ some value) ∧
        assign field value =
          ({ field with state := .FormChoice false choices editChoice [i] }, [])) ∧
    (value ∉ choices →
      assign field value =
        (field, ["can't set " ++ field.fullyQualifiedName ++ " to " ++ value])) := by
  rw [assign_closed_choice field choices editChoice currentChoices value hs hw]
  constructor
  · intro hmem
    obtain ⟨i, h1, h2, h3⟩ := indexOfFrom_of_mem choices value 0 hmem
    refine ⟨i, h2, h3, ?_⟩
    have hidx : indexOf choices value = (i : Int) := by
      unfold indexOf; rw [h1]; simp
    rw [hidx]
    simp
  · intro hnot
    have hidx : indexOf choices value = -1 := indexOfFrom_of_not_mem choices value 0 hnot
    rw [hidx]
    rfl

/-- Witness of C7: `Green` on the closed choice `color` (Red selected) selects index 1
alone. -/
theorem C7_closed_choice_write_witness :
    (sampleColor.state = .FormChoice false ["Red", "Green", "Blue"] "" [0] ∧
      writable sampleColor = true ∧ "Green" ∈ ["Red", "Green", "Blue"]) ∧
    ∃ i : Nat, ["Red", "Green", "Blue"][i]? = some "Green" ∧
      (∀ j : Nat, j < i → ["Red", "Green", "Blue"][j]? ≠ some "Green") ∧
      assign sampleColor "Green" =
        ({ sampleColor with state := .FormChoice false ["Red", "Green", "Blue"] "" [i] }, []) :=
  ⟨by decide,
   (C7_closed_choice_write sampleColor ["Red", "Green", "Blue"] "" [0] "Green" rfl
      (by decide)).1 (by decide)⟩

/-- C8, the code at a failing input: a closed choice field with the labels `""` and `b`,
both selected (indices 0 and 1, both valid).  Joining the selected labels by a single
comma gives `,b`; `content` returns `b`, because the comma is only added when the string
built so far is not empty. -/
theorem C8_content_drops_comma_after_empty_label :
    sampleEmptyLabel.state = .FormChoice false ["", "b"] "" [0, 1] ∧
    (∀ i ∈ [0, 1], i < ["", "b"].length) ∧
    specClosedRead ["", "b"] [0, 1] = ",b" ∧
    content sampleEmptyLabel = "b" ∧
    content sampleEmptyLabel ≠ specClosedRead ["", "b"] [0, 1] := by
  decide

/-- C9. For a writable checkbox and every value, after `assign` the checkbox is checked
exactly when the value is one of `true`, `1`, `yes`, whatever its state was before, and
`content` then returns `true` resp. `false`; nothing else of the field changes and
nothing is written.  In particular `True`, `YES`, `on` and the empty string uncheck it. -/
theorem C9_checkbox_write (field : FormField) (caption : String) (state : Bool)
    (value : String)
    (hs : field.state = .FormButton .CheckBox caption state)
    (hw : writable field = true) :
    assign field value =
      ({ field with
          state := .FormButton .CheckBox caption
                    (decide (value = "true" ∨ value = "1" ∨ value = "yes")) }, []) ∧
    content (assign field value).1 =
      (if value = "true" ∨ value = "1" ∨ value = "yes" then "true" else "false") ∧
    (value ∈ ["True", "YES", "on", ""] →
      (assign field value).1.state = .FormButton .CheckBox caption false) := by
  have hassign : assign field value =
      ({ field with
          state := .FormButton .CheckBox caption
                    (decide (value = "true" ∨ value = "1" ∨ value = "yes")) }, []) := by
    obtain ⟨h1, h2⟩ := (writable_iff field).1 hw
    unfold assign
    simp [h1, h2, hs, Bool.decide_or, Bool.or_assoc]
    rfl
  rw [hassign]
  refine ⟨rfl, ?_, ?_⟩
  · by_cases hv : value = "true" ∨ value = "1" ∨ value = "yes"
    · simp [content, hv]
    · simp [content, hv]
  · intro hmem
    have hv : ¬ (value = "true" ∨ value = "1" ∨ value = "yes") := by
      simp only [List.mem_cons, List.mem_singleton, List.not_mem_nil, or_false] at hmem
      rcases hmem with hv | hv | hv | hv <;> subst hv <;> decide
    simp [hv]

/-- Witness of C9: `YES` unchecks the checked checkbox `ok`, which then reads `false`. -/
theorem C9_checkbox_write_witness :
    (sampleCheckBox.state = .FormButton .CheckBox "" true ∧ writable sampleCheckBox = true) ∧
    content (assign sampleCheckBox "YES").1 =
      (if "YES" = "true" ∨ "YES" = "1" ∨ "YES" = "yes" then "true" else "false") :=
  ⟨by decide, (C9_checkbox_write sampleCheckBox "" true "YES" rfl (by decide)).2.1⟩

/-- C11. For every list of `-s` operands, the assignment map built by the driver is the
map of the specification: a key is present exactly when some operand with an `=` has it
as the text before its first `=`, and the value held under it is the text after the first
`=` of the last such operand (key and value may be empty, the value may contain further
`=`).  An operand without `=` adds no entry and writes `not an assigment <text>`; the
operands after it are still processed.  The map `assigned` has the same keys, and every
flag in it is false. -/
theorem C11_assignment_map (values : List String) :
    (∀ key : String, (parseAssignments values).assgs.contains key = true ↔
      (specValue values key).isSome = true) ∧
    (∀ key v : String, specValue values key = some v →
      (parseAssignments values).assgs.value key = v) ∧
    (∀ key value : String, Char.ofNat 61 ∉ key.data →
      specSplit (key ++ "=" ++ value) = some (key, value) ∧
      (parseAssignments (values ++ [key ++ "=" ++ value])).assgs.contains key = true ∧
      (parseAssignments (values ++ [key ++ "=" ++ value])).assgs.value key = value) ∧
    (∀ assg : String, Char.ofNat 61 ∉ assg.data →
      specSplit assg = none ∧
      (parseAssignments (values ++ [assg])).assgs = (parseAssignments values).assgs ∧
      (parseAssignments (values ++ [assg])).assigned = (parseAssignments values).assigned ∧
      (parseAssignments (values ++ [assg])).err =
        (parseAssignments values).err ++ ["not an assigment " ++ assg]) ∧
    (∀ more : List String, parseAssignments (values ++ more) =
      more.foldl parseStep (parseAssignments values)) ∧
    (parseAssignments values).err =
      (values.filter (fun assg => decide (Char.ofNat 61 ∉ assg.data))).map
        (fun assg => "not an assigment " ++ assg) ∧
    (∀ key : String, (parseAssignments values).assigned.contains key = true ↔
      (parseAssignments values).assgs.contains key = true) ∧
    (∀ e ∈ (parseAssignments values).assigned, e.2 = false) := by
  have hfold := foldl_parseStep_assgs values { assgs := [], assigned := [], err := [] }
  have hfresh := parseAssignments_fresh values
  have happ : ∀ more : List String, parseAssignments (values ++ more) =
      more.foldl parseStep (parseAssignments values) := by
    intro more
    unfold parseAssignments
    rw [List.foldl_append]
  refine ⟨fun key => ?_, fun key v hv => ?_, fun key value hk => ?_, fun assg ha => ?_,
    happ, ?_, hfresh.sameKeys, ?_⟩
  · exact (hfold key none (by simp [QMap.contains]) (by simp)).1
  · exact (hfold key none (by simp [QMap.contains]) (by simp)).2 v hv
  · have hs := specSplit_key_value key value hk
    refine ⟨hs, ?_, ?_⟩
    · rw [happ, List.foldl_cons, List.foldl_nil, parseStep_eq_spec, hs]
      simp [QMap.contains_insert]
    · rw [happ, List.foldl_cons, List.foldl_nil, parseStep_eq_spec, hs]
      simp [QMap.value_insert]
  · have hs := specSplit_none assg ha
    rw [happ, List.foldl_cons, List.foldl_nil, parseStep_eq_spec, hs]
    exact ⟨rfl, rfl, rfl, rfl⟩
  · have := foldl_parseStep_err values { assgs := [], assigned := [], err := [] }
    simpa [parseAssignments] using this
  · intro e he
    obtain ⟨k, b⟩ := e
    have := (QMap.mem_iff_value _ hfresh.nodup k b).1 he
    rw [hfresh.allFalse k] at this
    exact this.2.symm

/-- C12. Idempotence of the name-fill: for every field of every variety and with any
flags, assigning its fully-qualified name twice gives the same field (and writes the same
lines) as assigning it once; hence a second `-F` pass over the result of a `-F` pass, and
a second `-F` run on the document left by a `-F` run, change no field. -/
theorem C12_name_fill_idempotent (field : FormField) :
    assign (assign field field.fullyQualifiedName).1 field.fullyQualifiedName
      = assign field field.fullyQualifiedName ∧
    (assign (assign field field.fullyQualifiedName).1
      (assign field field.fullyQualifiedName).1.fullyQualifiedName).1
      = (assign field field.fullyQualifiedName).1 ∧
    (∀ (cl : CommandLine) (assgs assgs' : QMap String) (i i' : Nat) (doc : Document)
        (st st' : Pass),
      cl.fillfieldOption = true → cl.isSetSetOption = false →
      (visitPages cl assgs' i' (visitPages cl assgs i doc st).1 st').1
        = (visitPages cl assgs i doc st).1) ∧
    (∀ (engine engine' : Engine) (cl : CommandLine) (src : String) (more : List String)
        (doc doc1 : Document),
      cl.fillfieldOption = true → cl.isSetSetOption = false →
      cl.args = src :: more → engine.load src = some doc →
      (main engine cl).document = some doc1 → engine'.load src = some doc1 →
      (main engine' cl).document = some doc1) := by
  have hvis : ∀ (cl : CommandLine) (assgs : QMap String) (f : FormField),
      cl.fillfieldOption = true → cl.isSetSetOption = false →
      visited cl assgs f = (assign f f.fullyQualifiedName).1 := by
    intro cl assgs f hF hS
    rw [visited_eq, hS]
    simp [nameFilled, hF]
  have hidem : ∀ f : FormField,
      (assign (assign f f.fullyQualifiedName).1
        (assign f f.fullyQualifiedName).1.fullyQualifiedName).1
        = (assign f f.fullyQualifiedName).1 := by
    intro f
    rw [assign_fullyQualifiedName, assign_idem]
  have hdoc : ∀ (cl : CommandLine) (assgs assgs' : QMap String) (doc : Document),
      cl.fillfieldOption = true → cl.isSetSetOption = false →
      (doc.map (List.map (visited cl assgs))).map (List.map (visited cl assgs'))
        = doc.map (List.map (visited cl assgs)) := by
    intro cl assgs assgs' doc hF hS
    simp only [List.map_map]
    apply List.map_congr_left
    intro page _
    simp only [Function.comp, List.map_map]
    apply List.map_congr_left
    intro f _
    simp only [Function.comp, hvis cl _ _ hF hS]
    exact hidem f
  refine ⟨assign_idem _ _, hidem field, ?_, ?_⟩
  · intro cl assgs assgs' i i' doc st st' hF hS
    rw [visitPages_fields, visitPages_fields]
    exact hdoc cl assgs assgs' doc hF hS
  · intro engine engine' cl src more doc doc1 hF hS hargs hload hdoc1 hload'
    rw [main_document engine cl src more doc hargs hload] at hdoc1
    rw [main_document engine' cl src more doc1 hargs hload']
    cases hdoc1
    rw [hdoc cl _ _ doc hF hS]

/-- C13. When the resolver serves a field that is read-only or not visible under a key of
the map (the field's fully-qualified name, or its decimal id when the name is not a key),
the field is not changed and nothing is written for it, but the flag of the key is set;
hence no `<key> not found!` line is written after the pass over any document that holds
the field. -/
theorem C13_skipped_field_counts_as_found (cl : CommandLine) (field : FormField)
    (key : String)
    (hnw : field.isReadOnly = true ∨ field.isVisible = false)
    (hkey : (parseAssignments cl.setOption).assgs.contains key = true)
    (hmatch : field.fullyQualifiedName = key ∨
      (number field.id = key ∧
        (parseAssignments cl.setOption).assgs.contains field.fullyQualifiedName = false)) :
    (∀ assigned : QMap Bool,
      resolve (parseAssignments cl.setOption).assgs assigned field =
        { field := field, assigned := assigned.insert key true, err := [] } ∧
      (resolve (parseAssignments cl.setOption).assgs assigned field).assigned.value key
        = true) ∧
    (∀ (doc : Document) (i : Nat) (out err : List String), field ∈ allFields doc →
      (visitPages cl (parseAssignments cl.setOption).assgs i doc
        { assigned := (parseAssignments cl.setOption).assigned,
          out := out, err := err }).2.assigned.value key = true ∧
      key ++ " not found!" ∉
        notFound (visitPages cl (parseAssignments cl.setOption).assgs i doc
          { assigned := (parseAssignments cl.setOption).assigned,
            out := out, err := err }).2.assigned) := by
  have hres : resolvedKey (parseAssignments cl.setOption).assgs field = some key := by
    rw [resolvedKey_eq_some]
    rcases hmatch with h | ⟨h1, h2⟩
    · exact Or.inl ⟨h, hkey⟩
    · exact Or.inr ⟨h1, hkey, h2⟩
  have hset : cl.isSetSetOption = true := by
    unfold CommandLine.isSetSetOption
    cases hs : cl.setOption with
    | nil => rw [hs] at hkey; simp [parseAssignments, QMap.contains] at hkey
    | cons a l => rfl
  constructor
  · intro assigned
    have hr := resolve_of_resolvedKey _ assigned field key hres
    rw [assign_of_not_writable field _ hnw] at hr
    rw [hr]
    exact ⟨rfl, by simp [QMap.value_insert]⟩
  · intro doc i out err hmem
    constructor
    · rw [visitPages_assigned, if_pos hset]
      exact (foldl_markFulfilled_value _ _ _ key).2 (Or.inr ⟨field, hmem, hres⟩)
    · have hcount := count_notFound_after_pass cl doc i out err key hkey
      rw [if_pos ⟨field, hmem, hres⟩] at hcount
      exact List.count_eq_zero.1 hcount

/-- Witness of C13: the read-only text field `name` and `-s name=Alice`: the field keeps
`Bob`, and `name not found!` is not written. -/
theorem C13_skipped_field_counts_as_found_witness :
    ((sampleReadOnlyText.isReadOnly = true ∨ sampleReadOnlyText.isVisible = false) ∧
      (parseAssignments (sampleSet ["name=Alice"]).setOption).assgs.contains "name" = true ∧
      sampleReadOnlyText.fullyQualifiedName = "name") ∧
    "name" ++ " not found!" ∉
      notFound (visitPages (sampleSet ["name=Alice"])
        (parseAssignments (sampleSet ["name=Alice"]).setOption).assgs 0 [[sampleReadOnlyText]]
        { assigned := (parseAssignments (sampleSet ["name=Alice"]).setOption).assigned,
          out := [], err := [] }).2.assigned :=
  ⟨by decide,
   ((C13_skipped_field_counts_as_found (sampleSet ["name=Alice"]) sampleReadOnlyText "name"
      (Or.inl rfl) (by decide) (Or.inl rfl)).2 [[sampleReadOnlyText]] 0 [] []
      (by decide)).2⟩

/-- The exit status of a run that got past `parser.process` is 1 exactly when no positional
argument is given, or the source document cannot be loaded, or `convert()` was called and
reported failure; in every other case it is 0.  A malformed `-s` operand, an unmatched key
and a rejected closed choice value leave the status at 0. -/
theorem main_status_iff (engine : Engine) (cl : CommandLine) :
    ((main engine cl).status = 1 ↔
      cl.args = [] ∨
      (∃ src more, cl.args = src :: more ∧ engine.load src = none) ∨
      (∃ name doc, (main engine cl).convertCall = some (name, doc) ∧
        engine.convert doc name = false)) ∧
    ((main engine cl).status = 0 ∨ (main engine cl).status = 1) ∧
    (main (sampleEngine [[sampleColor]])
      (sampleSet ["foo", "missing=x", "color=Purple"])).status = 0 ∧
    (main (sampleEngine [[sampleColor]])
      (sampleSet ["foo", "missing=x", "color=Purple"])).err =
      ["not an assigment foo", "can't set color to Purple", "missing not found!"] := by
  refine ⟨?_, ?_, by decide, by decide⟩
  · cases hargs : cl.args with
    | nil => simp [main, hargs]
    | cons src more =>
        cases hload : engine.load src with
        | none => simp [main, hargs, hload]
        | some document =>
            rw [main_status engine cl src more document hargs hload,
              main_convertCall engine cl src more document hargs hload]
            cases more with
            | nil => simp [hload]
            | cons dst rest =>
                simp only [hload]
                by_cases hopt : (cl.isSetSetOption || cl.fillfieldOption) = true
                · cases hconv : engine.convert
                    (document.map (List.map (visited cl (parseAssignments cl.setOption).assgs)))
                    (if dst = "-" then "/dev/stdout" else dst) with
                  | true => simp [hopt, hconv, hload]
                  | false =>
                      simp only [hopt, hconv, if_true]
                      exact ⟨fun _ => Or.inr (Or.inr ⟨_, _, rfl, hconv⟩), fun _ => by simp⟩
                · simp [hopt, hload]
  · cases hargs : cl.args with
    | nil => simp [main, hargs]
    | cons src more =>
        cases hload : engine.load src with
        | none => simp [main, hargs, hload]
        | some document =>
            rw [main_status engine cl src more document hargs hload]
            cases more with
            | nil => simp
            | cons dst rest =>
                simp only
                split_ifs <;> simp

/-- Counterexample to C14 as stated: `pdffill --help`.  The source positional is missing,
but the parser prints the usage and ends the invocation with status 0 before `main` looks
at the positional arguments. -/
theorem C14_counterexample_help_without_source :
    sampleHelp.args = [] ∧
    (invocation (sampleEngine [[sampleText]]) (.help sampleHelp)).status = 0 ∧
    (invocation (sampleEngine [[sampleText]]) (.help sampleHelp)).out = ["usage"] := by
  decide

/-- C14, amended. The command-line parser ends an invocation it cannot parse with status
1, and an invocation with the help option with status 0, also when the source positional
is missing.  For every other invocation the exit status is 1 exactly when the source
positional is missing, or the source document cannot be loaded, or `convert()` was called
and reported failure; in every other case it is 0, in particular when `-s` operands are
malformed, when keys remain unmatched and when a closed choice value is rejected. -/
theorem C14_exit_status (engine : Engine) (p : Process) :
    ((invocation engine p).status = 1 ↔
      (∃ errorText, p = .error errorText) ∨
      (∃ cl, p = .parsed cl ∧
        (cl.args = [] ∨
          (∃ src more, cl.args = src :: more ∧ engine.load src = none) ∨
          (∃ name doc, (main engine cl).convertCall = some (name, doc) ∧
            engine.convert doc name = false)))) ∧
    ((invocation engine p).status = 0 ∨ (invocation engine p).status = 1) ∧
    (∀ cl, (invocation engine (.help cl)).status = 0) ∧
    (∀ errorText, (invocation engine (.error errorText)).status = 1) ∧
    (∀ cl, (invocation engine (.parsed cl)).status = (main engine cl).status) ∧
    (invocation (sampleEngine [[sampleColor]])
      (.parsed (sampleSet ["foo", "missing=x", "color=Purple"]))).status = 0 ∧
    (invocation (sampleEngine [[sampleColor]])
      (.parsed (sampleSet ["foo", "missing=x", "color=Purple"]))).err =
      ["not an assigment foo", "can't set color to Purple", "missing not found!"] := by
  refine ⟨?_, ?_, fun _ => rfl, fun _ => rfl, fun _ => rfl, by decide, by decide⟩
  · cases p with
    | error errorText => simp [invocation]
    | help cl => simp [invocation]
    | parsed cl =>
        simp only [invocation, (main_status_iff engine cl).1, reduceCtorEq, exists_false,
          false_or, Process.parsed.injEq, exists_eq_left']
  · cases p with
    | error errorText => exact Or.inr rfl
    | help cl => exact Or.inl rfl
    | parsed cl => exact (main_status_iff engine cl).2.1

/-- Counterexample to C15 as stated: `pdffill -F in.pdf out.pdf` when the source cannot
be loaded.  A destination is given and `-F` is present, but the run ends with status 1
before `convert()` is reached: no write is requested. -/
theorem C15_counterexample_source_not_loaded :
    sampleFill.args = ["in.pdf", "out.pdf"] ∧
    sampleFill.fillfieldOption = true ∧
    (main sampleFailingEngine sampleFill).convertCall = none ∧
    (main sampleFailingEngine sampleFill).status = 1 := by
  decide

/-- C15, amended. The driver calls `convert()` if and only if the source document was
loaded, a destination positional was given and at least one of `-F` and `-s` was present
(`-s` counts as present as soon as it has an operand, well-formed or not).  The call is
made on the document as the pass left it, with the destination as output file name
(`/dev/stdout` for `-`).  With no destination, or with neither `-F` nor `-s`, `convert()`
is not called and nothing is written. -/
theorem C15_write_requested (engine : Engine) (cl : CommandLine) :
    ((main engine cl).convertCall.isSome = true ↔
      ∃ src dst rest doc, cl.args = src :: dst :: rest ∧ engine.load src = some doc ∧
        (cl.setOption ≠ [] ∨ cl.fillfieldOption = true)) ∧
    (∀ src dst rest doc, cl.args = src :: dst :: rest → engine.load src = some doc →
      (cl.setOption ≠ [] ∨ cl.fillfieldOption = true) →
      (main engine cl).convertCall =
        some (if dst = "-" then "/dev/stdout" else dst,
          doc.map (List.map (visited cl (parseAssignments cl.setOption).assgs)))) ∧
    (cl.args.length ≤ 1 →
      (main engine cl).convertCall = none ∧ (main engine cl).written = none) ∧
    (cl.setOption = [] → cl.fillfieldOption = false →
      (main engine cl).convertCall = none ∧ (main engine cl).written = none) ∧
    ((main engine cl).convertCall = none → (main engine cl).written = none) ∧
    (main (sampleEngine [[sampleText]]) (sampleSet ["foo"])).convertCall
      = some ("out.pdf", [[sampleText]]) := by
  have hset : cl.isSetSetOption = true ↔ cl.setOption ≠ [] := by
    unfold CommandLine.isSetSetOption
    cases cl.setOption <;> simp
  have hopt : (cl.isSetSetOption || cl.fillfieldOption) = true ↔
      (cl.setOption ≠ [] ∨ cl.fillfieldOption = true) := by
    rw [Bool.or_eq_true, hset]
  have hwritten : (main engine cl).convertCall = none → (main engine cl).written = none := by
    cases hargs : cl.args with
    | nil => simp [main, hargs]
    | cons src more =>
        cases hload : engine.load src with
        | none => simp [main, hargs, hload]
        | some document =>
            cases more with
            | nil => simp [main, hargs, hload]
            | cons dst rest =>
                simp only [main, hargs, hload]
                split_ifs <;> simp
  have hcall : ∀ src dst rest doc, cl.args = src :: dst :: rest → engine.load src = some doc →
      (cl.setOption ≠ [] ∨ cl.fillfieldOption = true) →
      (main engine cl).convertCall =
        some (if dst = "-" then "/dev/stdout" else dst,
          doc.map (List.map (visited cl (parseAssignments cl.setOption).assgs))) := by
    intro src dst rest doc hargs hload ho
    rw [main_convertCall engine cl src (dst :: rest) doc hargs hload]
    simp only [hopt.2 ho, if_true]
  have hnone1 : cl.args.length ≤ 1 → (main engine cl).convertCall = none := by
    intro hlen
    cases hargs : cl.args with
    | nil => simp [main, hargs]
    | cons src more =>
        cases more with
        | nil =>
            cases hload : engine.load src with
            | none => simp [main, hargs, hload]
            | some doc => rw [main_convertCall engine cl src [] doc hargs hload]
        | cons dst rest => rw [hargs] at hlen; simp at hlen
  have hnone2 : cl.setOption = [] → cl.fillfieldOption = false →
      (main engine cl).convertCall = none := by
    intro h1 h2
    have ho : ¬ (cl.isSetSetOption || cl.fillfieldOption) = true := by
      rw [hopt]; simp [h1, h2]
    cases hargs : cl.args with
    | nil => simp [main, hargs]
    | cons src more =>
        cases hload : engine.load src with
        | none => simp [main, hargs, hload]
        | some doc =>
            rw [main_convertCall engine cl src more doc hargs hload]
            cases more with
            | nil => rfl
            | cons dst rest => simp only [ho, if_false]; rfl
  refine ⟨⟨?_, ?_⟩, hcall, fun h => ⟨hnone1 h, hwritten (hnone1 h)⟩,
    fun h1 h2 => ⟨hnone2 h1 h2, hwritten (hnone2 h1 h2)⟩, hwritten, by decide⟩
  · intro hsome
    cases hargs : cl.args with
    | nil => rw [hnone1 (by simp [hargs])] at hsome; cases hsome
    | cons src more =>
        cases hload : engine.load src with
        | none =>
            have : (main engine cl).convertCall = none := by simp [main, hargs, hload]
            rw [this] at hsome; cases hsome
        | some doc =>
            cases more with
            | nil => rw [hnone1 (by simp [hargs])] at hsome; cases hsome
            | cons dst rest =>
                refine ⟨src, dst, rest, doc, rfl, hload, ?_⟩
                by_contra hno
                rw [main_convertCall engine cl src (dst :: rest) doc hargs hload] at hsome
                simp only [mt hopt.1 hno, if_false] at hsome
                cases hsome
  · rintro ⟨src, dst, rest, doc, hargs, hload, ho⟩
    rw [hcall src dst rest doc hargs hload ho]
    rfl

/-- C16. Let `F` be a field of the document with fully-qualified name `k1` and decimal id
`k2`, the two keys distinct and both in the assignment map, and let `F` be the only field
whose name or decimal id equals `k1` or `k2`.  Then the resolver serves `F` under `k1`
only: `F` is written with the value of `k1`, the flag of `k1` is set and the flag of `k2`
is not; after the pass `k1 not found!` is not written and `k2 not found!` is written
exactly once. -/
theorem C16_two_keys_one_field (cl : CommandLine) (doc : Document) (F : FormField)
    (k1 k2 : String)
    (hF : F ∈ allFields doc)
    (hk1 : F.fullyQualifiedName = k1) (hk2 : number F.id = k2) (hne : k1 ≠ k2)
    (hc1 : (parseAssignments cl.setOption).assgs.contains k1 = true)
    (hc2 : (parseAssignments cl.setOption).assgs.contains k2 = true)
    (honly : ∀ f ∈ allFields doc, (matchesKey f k1 = true ∨ matchesKey f k2 = true) → f = F) :
    (matchesKey F k1 = true ∧ matchesKey F k2 = true) ∧
    (∀ assigned : QMap Bool,
      resolve (parseAssignments cl.setOption).assgs assigned F =
        { field := (assign F ((parseAssignments cl.setOption).assgs.value k1)).1,
          assigned := assigned.insert k1 true,
          err := (assign F ((parseAssignments cl.setOption).assgs.value k1)).2 } ∧
      (resolve (parseAssignments cl.setOption).assgs assigned F).assigned.value k2
        = assigned.value k2) ∧
    visited cl (parseAssignments cl.setOption).assgs F =
      (assign (nameFilled cl F) ((parseAssignments cl.setOption).assgs.value k1)).1 ∧
    (∀ (i : Nat) (out err : List String),
      (visitPages cl (parseAssignments cl.setOption).assgs i doc
        { assigned := (parseAssignments cl.setOption).assigned,
          out := out, err := err }).2.assigned.value k1 = true ∧
      (visitPages cl (parseAssignments cl.setOption).assgs i doc
        { assigned := (parseAssignments cl.setOption).assigned,
          out := out, err := err }).2.assigned.value k2 = false ∧
      (notFound (visitPages cl (parseAssignments cl.setOption).assgs i doc
        { assigned := (parseAssignments cl.setOption).assigned,
          out := out, err := err }).2.assigned).count (k1 ++ " not found!") = 0 ∧
      (notFound (visitPages cl (parseAssignments cl.setOption).assgs i doc
        { assigned := (parseAssignments cl.setOption).assigned,
          out := out, err := err }).2.assigned).count (k2 ++ " not found!") = 1) := by
  have hset : cl.isSetSetOption = true := by
    unfold CommandLine.isSetSetOption
    cases hs : cl.setOption with
    | nil => rw [hs] at hc1; simp [parseAssignments, QMap.contains] at hc1
    | cons a l => rfl
  have hres : resolvedKey (parseAssignments cl.setOption).assgs F = some k1 :=
    (resolvedKey_eq_some _ _ _).2 (Or.inl ⟨hk1, hc1⟩)
  have hnone : ¬ ∃ f ∈ allFields doc,
      resolvedKey (parseAssignments cl.setOption).assgs f = some k2 := by
    rintro ⟨f, hf, hr⟩
    have hm : matchesKey f k2 = true := by
      unfold matchesKey
      rcases (resolvedKey_eq_some _ _ _).1 hr with ⟨h, _⟩ | ⟨h, _, _⟩
      · simp [h]
      · simp [h]
    have hfF := honly f hf (Or.inr hm)
    rw [hfF, hres] at hr
    exact hne (Option.some.inj hr)
  have hfresh := parseAssignments_fresh cl.setOption
  refine ⟨⟨by simp [matchesKey, hk1], by simp [matchesKey, hk2]⟩,
    fun assigned => ?_, ?_, fun i out err => ?_⟩
  · have hr := resolve_of_resolvedKey _ assigned F k1 hres
    rw [hr]
    refine ⟨rfl, ?_⟩
    simp only [QMap.value_insert, if_neg (fun h : k2 = k1 => hne h.symm)]
  · rw [visited_eq, hset, hres]
    rfl
  · have hv := fun key => foldl_markFulfilled_value (parseAssignments cl.setOption).assgs
      (allFields doc) (parseAssignments cl.setOption).assigned key
    have hcount1 := count_notFound_after_pass cl doc i out err k1 hc1
    have hcount2 := count_notFound_after_pass cl doc i out err k2 hc2
    rw [if_pos ⟨F, hF, hres⟩] at hcount1
    rw [if_neg hnone] at hcount2
    refine ⟨?_, ?_, hcount1, hcount2⟩
    · rw [visitPages_assigned, if_pos hset]
      exact (hv k1).2 (Or.inr ⟨F, hF, hres⟩)
    · rw [visitPages_assigned, if_pos hset]
      simp only
      cases hb : QMap.value (List.foldl (markFulfilled (parseAssignments cl.setOption).assgs)
          (parseAssignments cl.setOption).assigned (allFields doc)) k2 with
      | false => rfl
      | true =>
          rcases (hv k2).1 hb with h | h
          · rw [hfresh.allFalse k2] at h; cases h
          · exact absurd h hnone

/-- Witness of C16: the text field `name` with id 7 and `-s name=Alice -s 7=Bob`: the
field holds `Alice`, and only `7 not found!` is written. -/
theorem C16_two_keys_one_field_witness :
    (sampleText ∈ allFields [[sampleText]] ∧ sampleText.fullyQualifiedName = "name" ∧
      number sampleText.id = "7" ∧ "name" ≠ "7" ∧
      (parseAssignments (sampleSet ["name=Alice", "7=Bob"]).setOption).assgs.contains "name"
        = true ∧
      (parseAssignments (sampleSet ["name=Alice", "7=Bob"]).setOption).assgs.contains "7"
        = true) ∧
    (notFound (visitPages (sampleSet ["name=Alice", "7=Bob"])
        (parseAssignments (sampleSet ["name=Alice", "7=Bob"]).setOption).assgs 0
        [[sampleText]]
        { assigned := (parseAssignments (sampleSet ["name=Alice", "7=Bob"]).setOption).assigned,
          out := [], err := [] }).2.assigned).count ("7" ++ " not found!") = 1 ∧
    (main (sampleEngine [[sampleText]]) (sampleSet ["name=Alice", "7=Bob"])).document
      = some [[{ sampleText with state := .FormText "Alice" }]] :=
  ⟨by decide,
   ((C16_two_keys_one_field (sampleSet ["name=Alice", "7=Bob"]) [[sampleText]] sampleText
      "name" "7" (by decide) rfl (by decide) (by decide) (by decide) (by decide)
      (by decide)).2.2.2 0 [] []).2.2.2,
   by decide⟩

/-- C17. Under `-l`, whatever else is given, the line printed for a field carries
`content` of the field as it is in the loaded document, not of the field after the
name-fill or the assignment of the same run: standard output of the pass, and of the whole
run, is the listing of the given document. -/
theorem C17_list_shows_input_values (cl : CommandLine) (hl : cl.listOption = true) :
    (∀ (i : Nat) (field : FormField),
      listLine i field =
        "Page " ++ toString (i + 1) ++ " : " ++ field.fullyQualifiedName ++
          " (" ++ number field.id ++ ") = " ++ content field) ∧
    (∀ (assgs : QMap String) (i : Nat) (fields : List FormField) (st : Pass),
      (visitPage cl assgs i fields st).2.out = st.out ++ fields.map (listLine i)) ∧
    (∀ (assgs : QMap String) (i : Nat) (doc : Document) (st : Pass),
      (visitPages cl assgs i doc st).2.out = st.out ++ listing i doc) ∧
    (∀ (engine : Engine) (src : String) (more : List String) (doc : Document),
      cl.args = src :: more → engine.load src = some doc →
      (main engine cl).out = listing 0 doc) := by
  refine ⟨fun _ _ => rfl, ?_, ?_, ?_⟩
  · intro assgs i fields st
    rw [visitPage_out, if_pos hl]
  · intro assgs i doc st
    rw [visitPages_out, if_pos hl]
  · intro engine src more doc hargs hload
    rw [main_out engine cl src more doc hargs hload, if_pos hl]

/-- Witness of C17: `pdffill -l -F -s name=Alice in.pdf` on the empty text field `name`:
the line shows the empty value, while the field holds `Alice` after the run. -/
theorem C17_list_shows_input_values_witness :
    sampleListFillSet.listOption = true ∧
    (main (sampleEngine [[sampleText]]) sampleListFillSet).out = listing 0 [[sampleText]] ∧
    listing 0 [[sampleText]] = ["Page 1 : name (7) = "] ∧
    (main (sampleEngine [[sampleText]]) sampleListFillSet).document
      = some [[{ sampleText with state := .FormText "Alice" }]] :=
  ⟨rfl,
   (C17_list_shows_input_values sampleListFillSet rfl).2.2.2 (sampleEngine [[sampleText]])
      "in.pdf" [] [[sampleText]] rfl rfl,
   by decide, by decide⟩

/-- C18. When assignments are given and a key `k` of the map is the fully-qualified name
of several fields, every one of them, on every page, is written with the value of `k`
(after its name-fill, if `-F` is given), not only the first one visited; a field whose
name and decimal id are both absent from the map is passed on by the resolver as it
is. -/
theorem C18_every_field_of_a_name_is_written (cl : CommandLine) (assgs : QMap String)
    (hS : cl.isSetSetOption = true) :
    (∀ (doc : Document) (i : Nat) (st : Pass) (p k : Nat) (field : FormField),
      fieldAt doc p k = some field →
      assgs.contains field.fullyQualifiedName = true →
      fieldAt (visitPages cl assgs i doc st).1 p k =
        some (assign (nameFilled cl field) (assgs.value field.fullyQualifiedName)).1) ∧
    (∀ (doc : Document) (i : Nat) (st : Pass) (p k : Nat) (field : FormField),
      fieldAt doc p k = some field →
      assgs.contains field.fullyQualifiedName = false →
      assgs.contains (number field.id) = false →
      fieldAt (visitPages cl assgs i doc st).1 p k = some (nameFilled cl field)) ∧
    (∀ (assigned : QMap Bool) (field : FormField),
      assgs.contains field.fullyQualifiedName = false →
      assgs.contains (number field.id) = false →
      resolve assgs assigned field = { field := field, assigned := assigned, err := [] }) ∧
    (∀ (engine : Engine) (src : String) (more : List String) (doc : Document) (p k : Nat)
        (field : FormField),
      assgs = (parseAssignments cl.setOption).assgs →
      cl.args = src :: more → engine.load src = some doc →
      fieldAt doc p k = some field →
      assgs.contains field.fullyQualifiedName = true →
      ∃ doc', (main engine cl).document = some doc' ∧
        fieldAt doc' p k =
          some (assign (nameFilled cl field) (assgs.value field.fullyQualifiedName)).1) := by
  have hname : ∀ field : FormField, assgs.contains field.fullyQualifiedName = true →
      visited cl assgs field =
        (assign (nameFilled cl field) (assgs.value field.fullyQualifiedName)).1 := by
    intro field hc
    have hres : resolvedKey assgs field = some field.fullyQualifiedName :=
      (resolvedKey_eq_some _ _ _).2 (Or.inl ⟨rfl, hc⟩)
    rw [visited_eq, hS, hres]
    rfl
  have habsent : ∀ field : FormField, assgs.contains field.fullyQualifiedName = false →
      assgs.contains (number field.id) = false → visited cl assgs field = nameFilled cl field := by
    intro field h1 h2
    have hres : resolvedKey assgs field = none := by
      unfold resolvedKey
      simp [h1, h2]
    rw [visited_eq, hS, hres]
    rfl
  refine ⟨?_, ?_, ?_, ?_⟩
  · intro doc i st p k field hk hc
    rw [visitPages_fields, fieldAt_map, hk]
    simp [hname field hc]
  · intro doc i st p k field hk h1 h2
    rw [visitPages_fields, fieldAt_map, hk]
    simp [habsent field h1 h2]
  · intro assigned field h1 h2
    simp [resolve, h1, h2]
  · intro engine src more doc p k field hassgs hargs hload hk hc
    refine ⟨_, main_document engine cl src more doc hargs hload, ?_⟩
    rw [fieldAt_map, hk, ← hassgs]
    simp [hname field hc]

/-- Witness of C18: two text fields called `name`, on two pages, and `-s name=Alice`: both
hold `Alice` after the run. -/
theorem C18_every_field_of_a_name_is_written_witness :
    (sampleSet ["name=Alice"]).isSetSetOption = true ∧
    fieldAt (visitPages (sampleSet ["name=Alice"]) [("name", "Alice")] 0
        [[sampleText], [{ sampleText with id := 8 }]]
        { assigned := [("name", false)], out := [], err := [] }).1 1 0 =
      some (assign (nameFilled (sampleSet ["name=Alice"]) { sampleText with id := 8 })
        (QMap.value [("name", "Alice")] "name")).1 ∧
    (main (sampleEngine [[sampleText], [{ sampleText with id := 8 }]])
        (sampleSet ["name=Alice"])).document =
      some [[{ sampleText with state := .FormText "Alice" }],
        [{ sampleText with id := 8, state := .FormText "Alice" }]] :=
  ⟨rfl,
   (C18_every_field_of_a_name_is_written (sampleSet ["name=Alice"]) [("name", "Alice")]
      rfl).1 [[sampleText], [{ sampleText with id := 8 }]] 0
      { assigned := [("name", false)], out := [], err := [] } 1 0
      { sampleText with id := 8 } (by decide) (by decide),
   by decide⟩

end Pdffill
